import Mathlib

/-!
Verification of the meteor scoring library (`meteor/meteor.py`).

The Python source is shallowly embedded: token index pairs are `Nat × Nat`,
Python floats are modelled as rationals `ℚ`, fallible functions return
`Except`, and `sorted` on lists of pairs is modelled by insertion sort over
the lexicographic order (Python tuple comparison). Definitions mirror the
source functions; definitions that instead transcribe the specification text
(used to compare spec and code) carry a `spec` prefix in their names.
-/

namespace MeteorVerify

/-- Lexicographic order on index pairs, as Python compares 2-tuples. -/
def lexLe (a b : Nat × Nat) : Prop :=
  a.1 < b.1 ∨ (a.1 = b.1 ∧ a.2 ≤ b.2)

instance : DecidableRel lexLe := fun a b => by
  unfold lexLe; exact inferInstance

instance : IsTotal (Nat × Nat) lexLe := by
  constructor; intro a b; unfold lexLe; omega

instance : IsTrans (Nat × Nat) lexLe := by
  constructor; intro a b c; unfold lexLe; omega

instance : IsAntisymm (Nat × Nat) lexLe := by
  constructor
  intro a b hab hba
  unfold lexLe at hab hba
  have h1 : a.1 = b.1 ∧ a.2 = b.2 := by omega
  calc a = (a.1, a.2) := rfl
    _ = (b.1, b.2) := by rw [h1.1, h1.2]
    _ = b := rfl

/-- `sorted(alignment)` for a Python list of index 2-tuples. -/
def sortPairs (l : List (Nat × Nat)) : List (Nat × Nat) :=
  List.insertionSort lexLe l

/-- One iteration of the loop in `count_chunks`: state is
`(last_h, last_r, num_chunks)`, with `last_h`/`last_r` as Python ints
(initially `-2`). -/
def chunkStep (s : Int × Int × Nat) (p : Nat × Nat) : Int × Int × Nat :=
  if (s.1 - (p.1 : Int)).natAbs ≠ 1 ∨ (s.2.1 - (p.2 : Int)).natAbs ≠ 1 then
    ((p.1 : Int), (p.2 : Int), s.2.2 + 1)
  else
    ((p.1 : Int), (p.2 : Int), s.2.2)

/-- `count_chunks` (meteor.py lines 244-257): sort the alignment, then count
positions at which a new chunk starts. -/
def count_chunks (alignment : List (Nat × Nat)) : Nat :=
  ((sortPairs alignment).foldl chunkStep (-2, -2, 0)).2.2

/-- Chunk-start rule transcribed from the specification: a new chunk begins
at the first pair and at any pair whose hypothesis and reference indices are
not **both** exactly 1 greater than the preceding pair. State is
`(previous pair if any, num_chunks)`. -/
def specChunkStep (s : Option (Nat × Nat) × Nat) (p : Nat × Nat) :
    Option (Nat × Nat) × Nat :=
  match s.1 with
  | none => (some p, s.2 + 1)
  | some q =>
      if p.1 = q.1 + 1 ∧ p.2 = q.2 + 1 then (some p, s.2)
      else (some p, s.2 + 1)

/-- Chunk count as described by the specification text. -/
def specCountChunks (alignment : List (Nat × Nat)) : Nat :=
  ((sortPairs alignment).foldl specChunkStep (none, 0)).2

/-- Chunk-start rule actually implemented: a new chunk begins at the first
pair and at any pair whose hypothesis index and reference index do not both
differ from the preceding pair by exactly 1 in absolute value (the code
compares `abs(last - cur) != 1` on both coordinates). -/
def amendedChunkStep (s : Option (Nat × Nat) × Nat) (p : Nat × Nat) :
    Option (Nat × Nat) × Nat :=
  match s.1 with
  | none => (some p, s.2 + 1)
  | some q =>
      if (p.1 = q.1 + 1 ∨ q.1 = p.1 + 1) ∧ (p.2 = q.2 + 1 ∨ q.2 = p.2 + 1) then
        (some p, s.2)
      else (some p, s.2 + 1)

/-- Chunk count under the amended (absolute-difference) chunk-start rule. -/
def amendedCountChunks (alignment : List (Nat × Nat)) : Nat :=
  ((sortPairs alignment).foldl amendedChunkStep (none, 0)).2

/-- Score composition of `meteor` (meteor.py lines 274-293), as a function
of the tokenized hypothesis length `n`, the tokenized reference length `m`
and the alignment returned by `align` for the pair. Python floats are
modelled by rationals. -/
def meteorScore (n m : Nat) (alignment : List (Nat × Nat)) : ℚ :=
  if n = 0 ∨ m = 0 then
    if n ≠ m then 0 else 1
  else if alignment.length = 0 then 0
  else
    (10 * ((alignment.length : ℚ) / (n : ℚ)) * ((alignment.length : ℚ) / (m : ℚ))) /
        (((alignment.length : ℚ) / (m : ℚ)) + 9 * ((alignment.length : ℚ) / (n : ℚ))) *
      (1 - (if 1 < count_chunks alignment then
        (1 / 2) * ((count_chunks alignment : ℚ) / (alignment.length : ℚ)) ^ 3
      else 0))

/-- The alignment produced by `align` is a partial matching: indices are in
range and no hypothesis or reference index is used twice. -/
def isMatching (alignment : List (Nat × Nat)) (n m : Nat) : Prop :=
  (∀ p ∈ alignment, p.1 < n ∧ p.2 < m) ∧
    alignment.Pairwise fun a b => a.1 ≠ b.1 ∧ a.2 ≠ b.2

theorem chunkFold_some (l : List (Nat × Nat)) :
    ∀ (q : Nat × Nat) (c : Nat),
      (l.foldl chunkStep ((q.1 : Int), (q.2 : Int), c)).2.2 =
        (l.foldl amendedChunkStep (some q, c)).2 := by
  induction l with
  | nil => intro q c; rfl
  | cons p t ih =>
      intro q c
      simp only [List.foldl_cons, chunkStep, amendedChunkStep]
      have hiff : (((q.1 : Int) - (p.1 : Int)).natAbs ≠ 1 ∨
          ((q.2 : Int) - (p.2 : Int)).natAbs ≠ 1) ↔
          ¬((p.1 = q.1 + 1 ∨ q.1 = p.1 + 1) ∧
            (p.2 = q.2 + 1 ∨ q.2 = p.2 + 1)) := by
        omega
      by_cases h : (p.1 = q.1 + 1 ∨ q.1 = p.1 + 1) ∧
          (p.2 = q.2 + 1 ∨ q.2 = p.2 + 1)
      · rw [if_neg (by rw [hiff]; exact not_not_intro h), if_pos h]
        exact ih p c
      · rw [if_pos (hiff.mpr h), if_neg h]
        exact ih p (c + 1)

theorem chunkFold_none (l : List (Nat × Nat)) (c : Nat) :
    (l.foldl chunkStep (-2, -2, c)).2.2 =
      (l.foldl amendedChunkStep (none, c)).2 := by
  cases l with
  | nil => rfl
  | cons p t =>
      simp only [List.foldl_cons, chunkStep, amendedChunkStep]
      have h : ((-2 : Int) - (p.1 : Int)).natAbs ≠ 1 ∨
          ((-2 : Int) - (p.2 : Int)).natAbs ≠ 1 := by omega
      rw [if_pos h]
      exact chunkFold_some t p (c + 1)

/-- C3 counterexample: on the alignment `[(0,1),(1,0)]` the code counts a
single chunk, while the chunk rule written in the specification (both
indices exactly 1 greater) counts two. -/
theorem count_chunks_ne_specCountChunks :
    count_chunks [(0, 1), (1, 0)] ≠ specCountChunks [(0, 1), (1, 0)] := by
  decide

/-- C3 (amended): `count_chunks` sorts the alignment lexicographically and
starts a new chunk at the first pair and at any subsequent pair whose
hypothesis and reference indices do not both differ by exactly 1 in absolute
value from the immediately preceding pair (so a reference index exactly 1
*smaller* also continues a chunk); it returns 0 for an empty alignment. -/
theorem count_chunks_eq_amended (alignment : List (Nat × Nat)) :
    count_chunks alignment = amendedCountChunks alignment ∧ count_chunks [] = 0 :=
  ⟨chunkFold_none (sortPairs alignment) 0, rfl⟩

/-- C9: `count_chunks` is order-insensitive: any two lists of pairs that are
permutations of one another (in particular, any scrambling of the sorted
list) receive the same chunk count. -/
theorem count_chunks_perm_invariant (l l' : List (Nat × Nat))
    (h : l.Perm l') : count_chunks l = count_chunks l' := by
  have hp : (sortPairs l).Perm (sortPairs l') :=
    (List.perm_insertionSort lexLe l).trans
      (h.trans (List.perm_insertionSort lexLe l').symm)
  have he : sortPairs l = sortPairs l' :=
    List.eq_of_perm_of_sorted hp (List.sorted_insertionSort lexLe l)
      (List.sorted_insertionSort lexLe l')
  unfold count_chunks
  rw [he]

/-- Witness for C9 at a concrete permutation. -/
theorem count_chunks_perm_invariant_witness :
    count_chunks [(1, 1), (2, 0), (0, 0)] = count_chunks [(0, 0), (1, 1), (2, 0)] :=
  count_chunks_perm_invariant _ _ (by decide)

/-- A token as handled by the signature pipeline: stable position, original
text, and the list of per-stage representations accumulated so far. -/
structure MToken (σ : Type) where
  tid : Nat
  text : String
  stages : List σ

/-- The token transformation a stage performs in `process_tokens`; modelled
as an arbitrary function so that defective stages (ones that skip tokens)
are representable. -/
def StageProcess (σ : Type) := List (MToken σ) → List (MToken σ)

/-- Message of the error raised by `StageBase.validate`. -/
def stageErrMsg : String :=
  "Unequal number of stage representations in tokens."

/-- `StageBase.validate` (meteor.py lines 53-57) succeeds iff the tokens all
hold the same number of stage representations: the code raises when
`len(set(len(token.stages) for token in tokens)) > 1`. -/
def validateOk {σ : Type} (tokens : List (MToken σ)) : Bool :=
  decide ((tokens.map fun t => t.stages.length).dedup.length ≤ 1)

/-- The stage loop of `preprocess` (meteor.py lines 96-98): apply each stage
in order and validate after each application; the first failed validation
aborts with the validation error. -/
def preprocessLoop {σ : Type} :
    List (StageProcess σ) → List (MToken σ) → Except String (List (MToken σ))
  | [], tokens => .ok tokens
  | stage :: rest, tokens =>
      if validateOk (stage tokens) then preprocessLoop rest (stage tokens)
      else .error stageErrMsg

/-- Token state after the first `k` stages have been applied (ignoring
validation, which does not modify tokens). -/
def applyStages {σ : Type} (stages : List (StageProcess σ))
    (tokens : List (MToken σ)) (k : Nat) : List (MToken σ) :=
  (stages.take k).foldl (fun ts s => s ts) tokens

/-- A defective stage for concrete tests: it returns tokens holding
diverging numbers of stage representations. -/
def brokenStage : StageProcess Nat :=
  fun _ => [⟨0, "a", []⟩, ⟨1, "b", [0]⟩]

/-- Message of the Python `ZeroDivisionError`. -/
def zeroDivMsg : String := "ZeroDivisionError: division by zero"

/-- `meteor_macro_avg` (meteor.py lines 296-310) with the per-pair scoring
function abstracted (scoring a pair invokes the external ILP solver; the
macro average only combines per-pair scores). Python zips the two lists,
truncating to the shorter one, and `sum(scores) / len(scores)` raises
`ZeroDivisionError` on an empty corpus, modelled with `Except`. -/
def meteor_macro_avg {α β : Type} (score : α → β → ℚ)
    (hypotheses : List α) (references : List β) : Except String ℚ :=
  let scores := (hypotheses.zip references).map fun p => score p.1 p.2
  if scores.length = 0 then .error zeroDivMsg
  else .ok (scores.sum / (scores.length : ℚ))

/-- A matching stage as seen by `align`: its weight, and the signature
function its `process_tokens` applies to each token text (meteor.py lines
33-79; both shipped stages map the token text through a pure function). -/
structure MStage (σ : Type) where
  weight : ℚ
  sig : String → σ

/-- The exact-match stage (`IdentityStage` with weight 1.0). -/
def identityStage : MStage String :=
  ⟨1, fun t => t⟩

/-- The stages whose signatures for the two texts agree (used for
`match_weights`: the code keeps `stage.weight` whenever
`hyptoken.stages[i] == reftoken.stages[i]`). -/
def agreeingStages {σ : Type} [DecidableEq σ] (stages : List (MStage σ))
    (a b : String) : List (MStage σ) :=
  stages.filter fun s => decide (s.sig a = s.sig b)

/-- `match_weights[h][r]` (meteor.py lines 136-147): the best weight over
all agreeing stages; `none` models the `float("-inf")` sentinel marking a
pair that is not a candidate. -/
def match_weight {σ : Type} [DecidableEq σ] (stages : List (MStage σ))
    (a b : String) : Option ℚ :=
  ((agreeingStages stages a b).map MStage.weight).max?

/-- The keys of the `match_vars` dict (meteor.py lines 153-159), in the
dict's iteration order: hypothesis-major over all candidate pairs. -/
def match_vars {σ : Type} [DecidableEq σ] (hypothesis reference : List String)
    (stages : List (MStage σ)) : List (Nat × Nat) :=
  (List.range hypothesis.length).flatMap fun h =>
    ((List.range reference.length).filter fun r =>
      (match_weight stages (hypothesis.getD h "") (reference.getD r "")).isSome).map
        fun r => (h, r)

/-- The weight of a candidate pair (0 as an irrelevant default for
non-candidates). -/
def pairWeight {σ : Type} [DecidableEq σ] (hypothesis reference : List String)
    (stages : List (MStage σ)) (p : Nat × Nat) : ℚ :=
  (match_weight stages (hypothesis.getD p.1 "") (reference.getD p.2 "")).getD 0

/-- Whether two candidate pairs cross (meteor.py line 165):
`(i < k and j > m) or (i > k and j < m)`. -/
def crossesb (a b : Nat × Nat) : Bool :=
  (decide (a.1 < b.1) && decide (b.2 < a.2)) ||
    (decide (b.1 < a.1) && decide (a.2 < b.2))

/-- The list of crossing variables created by `align` (meteor.py lines
163-171): one for each *ordered* pair drawn from
`product(match_vars.keys(), repeat=2)` that satisfies the crossing test. -/
def crossing_pairs (keys : List (Nat × Nat)) :
    List ((Nat × Nat) × (Nat × Nat)) :=
  (keys.product keys).filter fun p => crossesb p.1 p.2

/-- Spec-side count: the number of unordered pairs of distinct crossing
candidates (each unordered pair counted once). -/
def specUnorderedCrossingCount (keys : List (Nat × Nat)) : Nat :=
  ((keys.sublistsLen 2).filter fun l =>
    match l with
    | [a, b] => crossesb a b || crossesb b a
    | _ => false).length

/-- The crossing constraints of the model (meteor.py lines 167-170): for
every crossing variable, `-c + m₁ + m₂ ≤ 1`. -/
def crossing_constraints_hold (keys : List (Nat × Nat))
    (selected : Finset (Nat × Nat))
    (c : (Nat × Nat) × (Nat × Nat) → Bool) : Prop :=
  ∀ p ∈ crossing_pairs keys,
    -(if c p then (1 : ℚ) else 0) + (if p.1 ∈ selected then (1 : ℚ) else 0) +
        (if p.2 ∈ selected then (1 : ℚ) else 0) ≤ 1

/-- The objective of the model (meteor.py lines 203-209): the weighted sum
of the match variables plus `-1` times each crossing variable. -/
def objective {σ : Type} [DecidableEq σ] (hypothesis reference : List String)
    (stages : List (MStage σ)) (selected : Finset (Nat × Nat))
    (c : (Nat × Nat) × (Nat × Nat) → Bool) : ℚ :=
  ((match_vars hypothesis reference stages).map fun p =>
      pairWeight hypothesis reference stages p *
        (if p ∈ selected then (1 : ℚ) else 0)).sum +
    ((crossing_pairs (match_vars hypothesis reference stages)).map fun p =>
      (-1 : ℚ) * (if c p then (1 : ℚ) else 0)).sum

/-- Strict lexicographic order on index pairs. -/
def lexLt (a b : Nat × Nat) : Prop :=
  a.1 < b.1 ∨ (a.1 = b.1 ∧ a.2 < b.2)

/-- Whether two matches connect the same node of either sentence
(meteor.py line 232: `h_i == h_j or r_i == r_j`). -/
def sharesNode (a b : Nat × Nat) : Bool :=
  decide (a.1 = b.1) || decide (a.2 = b.2)

/-- One dict write `sets[jdx] = v`, the dict modelled as a function. -/
def setsUpdate (s : Nat → Nat) (jdx v : Nat) : Nat → Nat :=
  fun k => if k = jdx then v else s k

/-- One step of the inner loop body of `compute_cliques`: the conditional
write `sets[jdx] = sets[i]`. -/
def innerStep (ms : List (Nat × Nat)) (i : Nat) (s' : Nat → Nat)
    (jdx : Nat) : Nat → Nat :=
  if i ≤ jdx ∧ sharesNode (ms.getD i (0, 0)) (ms.getD jdx (0, 0)) = true
  then setsUpdate s' jdx (s' i)
  else s'

/-- The inner loop of `compute_cliques` for a fixed `i`
(`for j, (h_j, r_j) in enumerate(matches[i:])`, writing index `i + j`):
assign `sets[jdx] := sets[i]` for every `jdx ≥ i` whose match shares a node
with match `i`. -/
def cliqueInner (ms : List (Nat × Nat)) (i : Nat) (s : Nat → Nat) :
    Nat → Nat :=
  (List.range ms.length).foldl (innerStep ms i) s

/-- The `sets` dict after the double loop of `compute_cliques`
(meteor.py lines 229-233), as a function from match index to label. -/
def cliqueSets (ms : List (Nat × Nat)) : Nat → Nat :=
  (List.range ms.length).foldl (fun s i => cliqueInner ms i s) id

/-- `sets.items()`: the pairs `(index, label)` in index order. -/
def cliqueItems (ms : List (Nat × Nat)) : List (Nat × Nat) :=
  (List.range ms.length).map fun idx => (idx, cliqueSets ms idx)

/-- Comparison by label, for `sorted(sets.items(), key=itemgetter(1))`. -/
def valLe (a b : Nat × Nat) : Prop := a.2 ≤ b.2

instance : DecidableRel valLe := fun a b => by
  unfold valLe; exact inferInstance

instance : IsTotal (Nat × Nat) valLe := by
  constructor; intro a b; unfold valLe; omega

instance : IsTrans (Nat × Nat) valLe := by
  constructor; intro a b c; unfold valLe; omega

/-- `itertools.groupby` on the second component: split a list into maximal
adjacent runs of equal labels. -/
def groupRuns : List (Nat × Nat) → List (List (Nat × Nat))
  | [] => []
  | [x] => [[x]]
  | x :: y :: rest =>
      match groupRuns (y :: rest) with
      | [] => [[x]]
      | g :: gs => if x.2 = y.2 then (x :: g) :: gs else [x] :: g :: gs

/-- `compute_cliques` (meteor.py lines 219-241): label the matches with the
double loop, stably sort the `(index, label)` items by label, group adjacent
equal labels, and map each index back to its match. -/
def compute_cliques (ms : List (Nat × Nat)) : List (List (Nat × Nat)) :=
  (groupRuns (List.insertionSort valLe (cliqueItems ms))).map
    fun g => g.map fun p => ms.getD p.1 (0, 0)

/-- `required_matches` (meteor.py lines 194-200): sum over cliques of
`min(#distinct hypothesis nodes, #distinct reference nodes)`. -/
def required_matches (ms : List (Nat × Nat)) : Nat :=
  ((compute_cliques ms).map fun c =>
    min ((c.map Prod.fst).dedup.length) ((c.map Prod.snd).dedup.length)).sum

/-- Spec-side connectivity: two candidates are chain-connected when a
sequence of candidates links them, consecutive ones sharing a hypothesis or
reference index. -/
def chainConnected (ms : List (Nat × Nat)) (a b : Nat × Nat) : Prop :=
  Relation.ReflTransGen
    (fun x y => x ∈ ms ∧ y ∈ ms ∧ sharesNode x y = true) a b

/-- Distinct hypothesis indices referenced by a group of items. -/
def blockFst (ms : List (Nat × Nat)) (g : List (Nat × Nat)) : Finset Nat :=
  (g.map fun p => (ms.getD p.1 (0, 0)).1).toFinset

/-- Distinct reference indices referenced by a group of items. -/
def blockSnd (ms : List (Nat × Nat)) (g : List (Nat × Nat)) : Finset Nat :=
  (g.map fun p => (ms.getD p.1 (0, 0)).2).toFinset

/-- The per-node uniqueness constraints (meteor.py lines 173-191): each
hypothesis index and each reference index is matched at most once. -/
def uniqueness_constraints_hold (S : Finset (Nat × Nat)) : Prop :=
  (∀ h, (S.filter fun p => p.1 = h).card ≤ 1) ∧
    ∀ r, (S.filter fun p => p.2 = r).card ≤ 1

/-- The constraint set of the model built by `align`: selected pairs are
candidates, the uniqueness constraints hold, exactly `required_matches`
pairs are selected (meteor.py line 201), and the crossing constraints hold. -/
def feasible {σ : Type} [DecidableEq σ] (hypothesis reference : List String)
    (stages : List (MStage σ)) (S : Finset (Nat × Nat))
    (c : (Nat × Nat) × (Nat × Nat) → Bool) : Prop :=
  (∀ p ∈ S, p ∈ match_vars hypothesis reference stages) ∧
    uniqueness_constraints_hold S ∧
    S.card = required_matches (match_vars hypothesis reference stages) ∧
    crossing_constraints_hold (match_vars hypothesis reference stages) S c

/-- A feasible assignment that maximizes the objective: what the exact
solver hands back to `align` (meteor.py line 211). -/
def optimalAlignment {σ : Type} [DecidableEq σ]
    (hypothesis reference : List String) (stages : List (MStage σ))
    (S : Finset (Nat × Nat)) (c : (Nat × Nat) × (Nat × Nat) → Bool) : Prop :=
  feasible hypothesis reference stages S c ∧
    ∀ S' c', feasible hypothesis reference stages S' c' →
      objective hypothesis reference stages S' c' ≤
        objective hypothesis reference stages S c

/-- The list `align` returns (meteor.py line 216): the candidates whose
decision variable is 1, in the dict's iteration order. -/
def alignResult {σ : Type} [DecidableEq σ]
    (hypothesis reference : List String) (stages : List (MStage σ))
    (S : Finset (Nat × Nat)) : List (Nat × Nat) :=
  (match_vars hypothesis reference stages).filter fun p => p ∈ S

/-- The diagonal selection on `n` tokens. -/
def diagSel (n : Nat) : Finset (Nat × Nat) :=
  (Finset.range n).image fun i => (i, i)

/-- The crossing-variable assignment induced by a selection: 1 exactly when
both endpoints are selected. -/
def inducedCross (S : Finset (Nat × Nat)) :
    (Nat × Nat) × (Nat × Nat) → Bool :=
  fun p => decide (p.1 ∈ S ∧ p.2 ∈ S)

theorem chunkStep_le (s : Int × Int × Nat) (p : Nat × Nat) :
    (chunkStep s p).2.2 ≤ s.2.2 + 1 := by
  unfold chunkStep
  split <;> simp

theorem chunkFold_le (l : List (Nat × Nat)) :
    ∀ s : Int × Int × Nat, (l.foldl chunkStep s).2.2 ≤ s.2.2 + l.length := by
  induction l with
  | nil => intro s; simp
  | cons p t ih =>
      intro s
      simp only [List.foldl_cons, List.length_cons]
      refine le_trans (ih (chunkStep s p)) ?_
      have := chunkStep_le s p
      omega

/-- The chunk count never exceeds the number of aligned pairs. -/
theorem count_chunks_le_length (l : List (Nat × Nat)) :
    count_chunks l ≤ l.length := by
  have h := chunkFold_le (sortPairs l) (-2, -2, 0)
  unfold count_chunks
  calc ((sortPairs l).foldl chunkStep (-2, -2, 0)).2.2
      ≤ 0 + (sortPairs l).length := h
    _ = l.length := by
        rw [Nat.zero_add]
        exact List.length_insertionSort lexLe l

/-- A partial matching uses each hypothesis index and each reference index
at most once, so it has at most `n` and at most `m` entries. -/
theorem length_le_of_isMatching {alignment : List (Nat × Nat)} {n m : Nat}
    (h : isMatching alignment n m) :
    alignment.length ≤ n ∧ alignment.length ≤ m := by
  obtain ⟨hbound, hpw⟩ := h
  constructor
  · have hnd : (alignment.map Prod.fst).Nodup :=
      List.pairwise_map.mpr (hpw.imp fun hab => hab.1)
    have hsub : (alignment.map Prod.fst).toFinset ⊆ Finset.range n := by
      intro x hx
      rw [List.mem_toFinset, List.mem_map] at hx
      obtain ⟨p, hp, rfl⟩ := hx
      exact Finset.mem_range.mpr (hbound p hp).1
    have := Finset.card_le_card hsub
    rw [List.toFinset_card_of_nodup hnd, Finset.card_range] at this
    simpa using this
  · have hnd : (alignment.map Prod.snd).Nodup :=
      List.pairwise_map.mpr (hpw.imp fun hab => hab.2)
    have hsub : (alignment.map Prod.snd).toFinset ⊆ Finset.range m := by
      intro x hx
      rw [List.mem_toFinset, List.mem_map] at hx
      obtain ⟨p, hp, rfl⟩ := hx
      exact Finset.mem_range.mpr (hbound p hp).2
    have := Finset.card_le_card hsub
    rw [List.toFinset_card_of_nodup hnd, Finset.card_range] at this
    simpa using this

/-- C5: with an empty hypothesis or reference the score is 1.0 when both are
empty and 0.0 when exactly one is; with both nonempty and an empty
alignment the score is 0.0. -/
theorem meteor_degenerate_cases :
    (∀ (m : Nat) (al : List (Nat × Nat)),
        meteorScore 0 0 al = 1 ∧
          (m ≠ 0 → meteorScore 0 m al = 0 ∧ meteorScore m 0 al = 0)) ∧
      ∀ (n m : Nat) (al : List (Nat × Nat)),
        1 ≤ n → 1 ≤ m → al.length = 0 → meteorScore n m al = 0 := by
  constructor
  · intro m al
    constructor
    · simp [meteorScore]
    · intro hm
      constructor
      · simp [meteorScore, hm, Ne.symm hm]
      · simp [meteorScore, hm]
  · intro n m al hn hm hlen
    have h1 : ¬(n = 0 ∨ m = 0) := by omega
    simp [meteorScore, h1, hlen]

/-- Witness for C5: both-empty gives 1, one-empty gives 0, and an
empty alignment over nonempty sentences gives 0. -/
theorem meteor_degenerate_cases_witness :
    meteorScore 0 0 [] = 1 ∧ meteorScore 0 3 [] = 0 ∧
      meteorScore 2 3 [] = 0 :=
  ⟨(meteor_degenerate_cases.1 3 []).1,
    ((meteor_degenerate_cases.1 3 []).2 (by decide)).1,
    meteor_degenerate_cases.2 2 3 [] (by decide) (by decide) rfl⟩

/-- C6: with `M ≥ 1` matches over a partial matching of nonempty sentences,
the score is `Fmean * (1 - penalty)` with `Fmean = 10pr/(r + 9p)`,
`p = M/n`, `r = M/m`, `penalty = (C/M)^3 / 2` for `C > 1` chunks (else 0),
and the result lies in `[0, 1]`. -/
theorem meteor_score_formula (n m : Nat) (al : List (Nat × Nat))
    (hn : 1 ≤ n) (hm : 1 ≤ m) (hM : 1 ≤ al.length)
    (hmat : isMatching al n m) :
    meteorScore n m al =
        (10 * ((al.length : ℚ) / (n : ℚ)) * ((al.length : ℚ) / (m : ℚ))) /
            (((al.length : ℚ) / (m : ℚ)) + 9 * ((al.length : ℚ) / (n : ℚ))) *
          (1 - (if 1 < count_chunks al then
            (1 / 2) * ((count_chunks al : ℚ) / (al.length : ℚ)) ^ 3 else 0)) ∧
      0 ≤ meteorScore n m al ∧ meteorScore n m al ≤ 1 := by
  have h0 : ¬(n = 0 ∨ m = 0) := by omega
  have hlen : ¬(al.length = 0) := by omega
  have heq : meteorScore n m al =
      (10 * ((al.length : ℚ) / (n : ℚ)) * ((al.length : ℚ) / (m : ℚ))) /
          (((al.length : ℚ) / (m : ℚ)) + 9 * ((al.length : ℚ) / (n : ℚ))) *
        (1 - (if 1 < count_chunks al then
          (1 / 2) * ((count_chunks al : ℚ) / (al.length : ℚ)) ^ 3 else 0)) := by
    unfold meteorScore
    rw [if_neg h0, if_neg hlen]
  have hMn := (length_le_of_isMatching hmat).1
  have hMm := (length_le_of_isMatching hmat).2
  have hChnk := count_chunks_le_length al
  have hM1 : (1 : ℚ) ≤ (al.length : ℚ) := by exact_mod_cast hM
  have hnq : (0 : ℚ) < (n : ℚ) := by exact_mod_cast (by omega : 0 < n)
  have hmq : (0 : ℚ) < (m : ℚ) := by exact_mod_cast (by omega : 0 < m)
  have hMnq : (al.length : ℚ) ≤ (n : ℚ) := by exact_mod_cast hMn
  have hMmq : (al.length : ℚ) ≤ (m : ℚ) := by exact_mod_cast hMm
  have hCM : (count_chunks al : ℚ) ≤ (al.length : ℚ) := by exact_mod_cast hChnk
  have hp0 : (0 : ℚ) < (al.length : ℚ) / (n : ℚ) := by positivity
  have hr0 : (0 : ℚ) < (al.length : ℚ) / (m : ℚ) := by positivity
  have hp1 : (al.length : ℚ) / (n : ℚ) ≤ 1 := by
    rw [div_le_one hnq]; exact hMnq
  have hr1 : (al.length : ℚ) / (m : ℚ) ≤ 1 := by
    rw [div_le_one hmq]; exact hMmq
  have hden : (0 : ℚ) < (al.length : ℚ) / (m : ℚ) +
      9 * ((al.length : ℚ) / (n : ℚ)) := by positivity
  have hfs0 : (0 : ℚ) ≤
      10 * ((al.length : ℚ) / (n : ℚ)) * ((al.length : ℚ) / (m : ℚ)) /
        ((al.length : ℚ) / (m : ℚ) + 9 * ((al.length : ℚ) / (n : ℚ))) := by
    positivity
  have hfs1 : 10 * ((al.length : ℚ) / (n : ℚ)) * ((al.length : ℚ) / (m : ℚ)) /
      ((al.length : ℚ) / (m : ℚ) + 9 * ((al.length : ℚ) / (n : ℚ))) ≤ 1 := by
    rw [div_le_one hden]
    nlinarith [mul_nonneg (le_of_lt hr0) (sub_nonneg.mpr hp1),
      mul_nonneg (le_of_lt hp0) (sub_nonneg.mpr hr1)]
  have hpen0 : (0 : ℚ) ≤ (if 1 < count_chunks al then
      (1 / 2) * ((count_chunks al : ℚ) / (al.length : ℚ)) ^ 3 else 0) := by
    split
    · positivity
    · exact le_refl 0
  have hpen1 : (if 1 < count_chunks al then
      (1 / 2) * ((count_chunks al : ℚ) / (al.length : ℚ)) ^ 3 else 0) ≤ 1 := by
    split
    · have hq0 : (0 : ℚ) ≤ (count_chunks al : ℚ) / (al.length : ℚ) := by
        positivity
      have hq : (count_chunks al : ℚ) / (al.length : ℚ) ≤ 1 := by
        rw [div_le_one (by linarith : (0 : ℚ) < (al.length : ℚ))]
        exact hCM
      have h3 : ((count_chunks al : ℚ) / (al.length : ℚ)) ^ 3 ≤ 1 :=
        pow_le_one₀ hq0 hq
      linarith
    · norm_num
  refine ⟨heq, ?_, ?_⟩ <;> rw [heq]
  · exact mul_nonneg hfs0 (by linarith)
  · exact mul_le_one₀ hfs1 (by linarith) (by linarith)

/-- Witness for C6 at a concrete two-token matching. -/
theorem meteor_score_formula_witness :
    meteorScore 2 3 [(0, 0), (1, 2)] =
        (10 * ((2 : ℚ) / 2) * ((2 : ℚ) / 3)) /
            (((2 : ℚ) / 3) + 9 * ((2 : ℚ) / 2)) *
          (1 - (1 / 2) * ((2 : ℚ) / 2) ^ 3) ∧
      0 ≤ meteorScore 2 3 [(0, 0), (1, 2)] ∧
        meteorScore 2 3 [(0, 0), (1, 2)] ≤ 1 := by
  have h := meteor_score_formula 2 3 [(0, 0), (1, 2)] (by decide) (by decide)
    (by decide) (by constructor <;> decide)
  have hc : count_chunks [(0, 0), (1, 2)] = 2 := by decide
  refine ⟨?_, h.2.1, h.2.2⟩
  have h1 := h.1
  rw [hc] at h1
  simpa using h1

theorem applyStages_succ_cons {σ : Type} (s : StageProcess σ)
    (rest : List (StageProcess σ)) (tokens : List (MToken σ)) (k : Nat) :
    applyStages (s :: rest) tokens (k + 1) = applyStages rest (s tokens) k := by
  simp [applyStages, List.take_succ_cons]

/-- C7: the stage loop of `preprocess` fails with the validation error
exactly when some stage leaves the tokens with diverging signature counts,
and a stage whose output already diverges makes the loop fail immediately,
whatever stages follow. -/
theorem preprocess_validation {σ : Type} :
    (∀ (stages : List (StageProcess σ)) (tokens : List (MToken σ)),
        preprocessLoop stages tokens = .error stageErrMsg ↔
          ∃ k, k < stages.length ∧
            validateOk (applyStages stages tokens (k + 1)) = false) ∧
      ∀ (s : StageProcess σ) (rest : List (StageProcess σ))
          (tokens : List (MToken σ)),
        validateOk (s tokens) = false →
          preprocessLoop (s :: rest) tokens = .error stageErrMsg := by
  constructor
  · intro stages
    induction stages with
    | nil =>
        intro tokens
        simp [preprocessLoop]
    | cons s rest ih =>
        intro tokens
        by_cases hv : validateOk (s tokens) = true
        · have hstep : preprocessLoop (s :: rest) tokens =
              preprocessLoop rest (s tokens) := by
            simp only [preprocessLoop]
            rw [if_pos hv]
          rw [hstep, ih (s tokens)]
          constructor
          · rintro ⟨k, hk, hbad⟩
            refine ⟨k + 1, by simpa using Nat.succ_lt_succ hk, ?_⟩
            rwa [applyStages_succ_cons]
          · rintro ⟨k, hk, hbad⟩
            cases k with
            | zero =>
                rw [applyStages_succ_cons] at hbad
                have : applyStages rest (s tokens) 0 = s tokens := rfl
                rw [this] at hbad
                rw [hv] at hbad
                cases hbad
            | succ j =>
                refine ⟨j, by simpa using Nat.lt_of_succ_lt_succ hk, ?_⟩
                rwa [applyStages_succ_cons] at hbad
        · have hv' : validateOk (s tokens) = false := by
            cases h : validateOk (s tokens)
            · rfl
            · exact absurd h hv
          have hstep : preprocessLoop (s :: rest) tokens = .error stageErrMsg := by
            simp only [preprocessLoop]
            rw [if_neg hv]
          rw [hstep]
          constructor
          · intro _
            refine ⟨0, by simp, ?_⟩
            rw [applyStages_succ_cons]
            exact hv'
          · intro _
            rfl
  · intro s rest tokens hv
    simp only [preprocessLoop]
    rw [if_neg (by simp [hv])]

/-- Witness for C7: a stage that skips a token makes the loop fail, and with
no stages the loop succeeds. -/
theorem preprocess_validation_witness :
    preprocessLoop [brokenStage] [] = .error stageErrMsg ∧
      ¬preprocessLoop ([] : List (StageProcess Nat)) [] = .error stageErrMsg := by
  constructor
  · exact preprocess_validation.2 brokenStage [] [] (by decide)
  · rw [preprocess_validation.1]
    simp

/-- C8: `meteor_macro_avg` over an equal-length nonempty corpus returns the
arithmetic mean of the per-pair scores, an empty corpus is a
division-by-zero error, and two pairs scoring 1.0 and 0.5 average 0.75. -/
theorem meteor_macro_avg_spec :
    (∀ (α β : Type) (score : α → β → ℚ) (hyps : List α) (refs : List β),
        hyps.length = refs.length → hyps ≠ [] →
          meteor_macro_avg score hyps refs =
            .ok (((hyps.zip refs).map fun p => score p.1 p.2).sum /
              ((((hyps.zip refs).map fun p => score p.1 p.2).length : ℚ)))) ∧
      (∀ (α β : Type) (score : α → β → ℚ),
          meteor_macro_avg score ([] : List α) ([] : List β) =
            .error zeroDivMsg) ∧
      meteor_macro_avg (fun (x : ℚ) (_ : ℚ) => x) [1, 1/2] [0, 0] =
        .ok (3/4) := by
  refine ⟨?_, ?_, ?_⟩
  · intro α β score hyps refs hlen hne
    have hzip : (hyps.zip refs).length = hyps.length := by
      rw [List.length_zip, hlen, Nat.min_self]
    have hpos : ((hyps.zip refs).map fun p => score p.1 p.2).length ≠ 0 := by
      rw [List.length_map, hzip]
      simpa [List.length_eq_zero] using hne
    unfold meteor_macro_avg
    rw [if_neg hpos]
  · intro α β score
    rfl
  · norm_num [meteor_macro_avg]

/-- Witness for C8 at a concrete equal-length corpus. -/
theorem meteor_macro_avg_spec_witness :
    meteor_macro_avg (fun (x : ℚ) (_ : ℚ) => x) [2, 4] [5, 6] =
      .ok ((([((2 : ℚ), (5 : ℚ)), (4, 6)].map fun p => p.1).sum) /
        ((([((2 : ℚ), (5 : ℚ)), (4, 6)].map fun p => p.1).length : ℚ))) :=
  meteor_macro_avg_spec.1 ℚ ℚ (fun x _ => x) [2, 4] [5, 6] rfl (by decide)

/-- C10 counterexample: with an empty hypothesis list and a nonempty
reference list the lengths differ, yet an error *is* raised (the truncated
corpus is empty, so the mean is a division by zero). -/
theorem meteor_macro_avg_mismatch_error :
    ([] : List ℚ).length ≠ [(0 : ℚ)].length ∧
      meteor_macro_avg (fun (x : ℚ) (_ : ℚ) => x) [] [(0 : ℚ)] =
        .error zeroDivMsg :=
  ⟨by decide, rfl⟩

/-- C10 (amended): when both lists are nonempty — even of different lengths —
no error is raised: the corpus is silently truncated to the first
`min(len(hypotheses), len(references))` pairs and the mean is taken over
those scores alone. -/
theorem meteor_macro_avg_truncates (α β : Type) (score : α → β → ℚ)
    (hyps : List α) (refs : List β) (h1 : hyps ≠ []) (h2 : refs ≠ []) :
    meteor_macro_avg score hyps refs =
        .ok (((hyps.zip refs).map fun p => score p.1 p.2).sum /
          ((((hyps.zip refs).map fun p => score p.1 p.2).length : ℚ))) ∧
      (hyps.zip refs).length = min hyps.length refs.length := by
  have hzip : (hyps.zip refs).length = min hyps.length refs.length :=
    List.length_zip hyps refs
  have hpos : ((hyps.zip refs).map fun p => score p.1 p.2).length ≠ 0 := by
    rw [List.length_map, hzip]
    have l1 : 0 < hyps.length := List.length_pos.mpr h1
    have l2 : 0 < refs.length := List.length_pos.mpr h2
    omega
  refine ⟨?_, hzip⟩
  unfold meteor_macro_avg
  rw [if_neg hpos]

/-- Witness for C10 (amended) at lists of different lengths. -/
theorem meteor_macro_avg_truncates_witness :
    meteor_macro_avg (fun (x : ℚ) (_ : ℚ) => x) [2, 4] [5, 6, 7] =
        .ok ((([((2 : ℚ), (5 : ℚ)), (4, 6)].map fun p => p.1).sum) /
          ((([((2 : ℚ), (5 : ℚ)), (4, 6)].map fun p => p.1).length : ℚ))) ∧
      ([(2 : ℚ), 4].zip [(5 : ℚ), 6, 7]).length =
        min [(2 : ℚ), 4].length [(5 : ℚ), 6, 7].length :=
  meteor_macro_avg_truncates ℚ ℚ (fun x _ => x) [2, 4] [5, 6, 7]
    (by decide) (by decide)

theorem crossesb_iff (a b : Nat × Nat) :
    crossesb a b = true ↔
      (a.1 < b.1 ∧ b.2 < a.2) ∨ (b.1 < a.1 ∧ a.2 < b.2) := by
  simp [crossesb]

/-- The candidate list of `align` is strictly increasing in the
lexicographic order (hypothesis-major construction). -/
theorem match_vars_pairwise {σ : Type} [DecidableEq σ]
    (hypothesis reference : List String) (stages : List (MStage σ)) :
    (match_vars hypothesis reference stages).Pairwise lexLt := by
  unfold match_vars
  rw [List.flatMap_def, List.pairwise_flatten]
  constructor
  · intro l hl
    rw [List.mem_map] at hl
    obtain ⟨h, _, rfl⟩ := hl
    rw [List.pairwise_map]
    have : ((List.range reference.length).filter fun r =>
        (match_weight stages (hypothesis.getD h "")
          (reference.getD r "")).isSome).Pairwise (· < ·) :=
      (List.pairwise_lt_range _).sublist (List.filter_sublist _)
    exact this.imp fun hr => Or.inr ⟨rfl, hr⟩
  · rw [List.pairwise_map]
    have : (List.range hypothesis.length).Pairwise (· < ·) :=
      List.pairwise_lt_range _
    refine this.imp ?_
    intro h1 h2 hlt x hx y hy
    rw [List.mem_map] at hx hy
    obtain ⟨r1, _, rfl⟩ := hx
    obtain ⟨r2, _, rfl⟩ := hy
    exact Or.inl hlt

theorem match_vars_nodup {σ : Type} [DecidableEq σ]
    (hypothesis reference : List String) (stages : List (MStage σ)) :
    (match_vars hypothesis reference stages).Nodup :=
  (match_vars_pairwise hypothesis reference stages).imp fun hab => by
    intro heq
    subst heq
    unfold lexLt at hab
    omega

theorem length_filter_eq_one_of_nodup {α : Type} [DecidableEq α]
    {l : List α} (hnd : l.Nodup) {x : α} (hx : x ∈ l) :
    (l.filter fun q => q = x).length = 1 := by
  induction l with
  | nil => cases hx
  | cons y t ih =>
      rw [List.nodup_cons] at hnd
      rcases List.mem_cons.mp hx with rfl | hmem
      · rw [List.filter_cons_of_pos (by simp)]
        have hnone : (t.filter fun q => q = x).length = 0 := by
          rw [List.length_eq_zero, List.filter_eq_nil_iff]
          intro a ha
          simp only [decide_eq_true_eq]
          rintro rfl
          exact hnd.1 ha
        simp [hnone]
      · have hne : ¬(y = x) := by
          rintro rfl
          exact hnd.1 hmem
        rw [List.filter_cons_of_neg (by simpa using hne)]
        exact ih hnd.2 hmem

theorem sum_map_mul_indicator (l : List (Nat × Nat))
    (f : Nat × Nat → ℚ) (S : Finset (Nat × Nat)) :
    (l.map fun p => f p * (if p ∈ S then (1 : ℚ) else 0)).sum =
      ((l.filter fun p => p ∈ S).map f).sum := by
  induction l with
  | nil => simp
  | cons x t ih =>
      simp only [List.map_cons, List.sum_cons]
      by_cases hx : x ∈ S
      · rw [if_pos hx, List.filter_cons_of_pos (by simpa using hx)]
        simp only [mul_one, List.map_cons, List.sum_cons, ih]
      · rw [if_neg hx, List.filter_cons_of_neg (by simpa using hx)]
        simp only [mul_zero, zero_add, ih]

theorem sum_map_neg_indicator {X : Type} (l : List X) (c : X → Bool) :
    (l.map fun p => (-1 : ℚ) * (if c p then (1 : ℚ) else 0)).sum =
      -(l.countP c : ℚ) := by
  induction l with
  | nil => simp
  | cons x t ih =>
      simp only [List.map_cons, List.sum_cons, List.countP_cons, ih]
      by_cases hx : c x = true
      · rw [if_pos hx, if_pos hx]
        push_cast
        ring
      · rw [if_neg hx, if_neg hx]
        push_cast
        ring

/-- C1 counterexample: for the candidate set that `align` builds for the
hypothesis tokens `a b` against reference `b a` under the exact-match stage,
the model holds two crossing variables although there is a single unordered
pair of distinct crossing candidates. -/
theorem crossing_vars_count_ne_unordered :
    (crossing_pairs (match_vars ["a", "b"] ["b", "a"] [identityStage])).length ≠
      specUnorderedCrossingCount
        (match_vars ["a", "b"] ["b", "a"] [identityStage]) := by
  decide

/-- C1 (amended): the model holds exactly *two* crossing variables for every
unordered pair of distinct crossing candidates — one per ordering — each
constrained by `selected(i,j) + selected(k,l) - crossing ≤ 1`, and the
objective subtracts every crossing variable once from the weighted sum of
selected matches, so a realized crossing is penalized twice. -/
theorem crossing_vars_amended {σ : Type} [DecidableEq σ]
    (hypothesis reference : List String) (stages : List (MStage σ))
    (a b : Nat × Nat)
    (ha : a ∈ match_vars hypothesis reference stages)
    (hb : b ∈ match_vars hypothesis reference stages)
    (hx : crossesb a b = true) :
    (((crossing_pairs (match_vars hypothesis reference stages)).filter
          fun q => q = (a, b)).length = 1 ∧
        ((crossing_pairs (match_vars hypothesis reference stages)).filter
          fun q => q = (b, a)).length = 1) ∧
      (∀ p, p ∈ crossing_pairs (match_vars hypothesis reference stages) ↔
        p.1 ∈ match_vars hypothesis reference stages ∧
          p.2 ∈ match_vars hypothesis reference stages ∧
            crossesb p.1 p.2 = true) ∧
      (∀ (selected : Finset (Nat × Nat))
          (c : (Nat × Nat) × (Nat × Nat) → Bool),
        (crossing_constraints_hold (match_vars hypothesis reference stages)
            selected c ↔
          ∀ p ∈ crossing_pairs (match_vars hypothesis reference stages),
            -(if c p then (1 : ℚ) else 0) +
                (if p.1 ∈ selected then (1 : ℚ) else 0) +
              (if p.2 ∈ selected then (1 : ℚ) else 0) ≤ 1) ∧
        objective hypothesis reference stages selected c =
          (((match_vars hypothesis reference stages).filter
              fun p => p ∈ selected).map
            (pairWeight hypothesis reference stages)).sum -
            ((crossing_pairs (match_vars hypothesis reference stages)).countP
              (fun p => c p) : ℚ)) := by
  have hnd := match_vars_nodup hypothesis reference stages
  have hndp : (crossing_pairs (match_vars hypothesis reference stages)).Nodup :=
    (hnd.product hnd).filter _
  have hmem : ∀ p, p ∈ crossing_pairs (match_vars hypothesis reference stages) ↔
      p.1 ∈ match_vars hypothesis reference stages ∧
        p.2 ∈ match_vars hypothesis reference stages ∧
          crossesb p.1 p.2 = true := by
    intro p
    cases p with
    | mk x y =>
        unfold crossing_pairs
        rw [List.mem_filter, List.pair_mem_product]
        tauto
  have hxba : crossesb b a = true := by
    rw [crossesb_iff] at hx ⊢
    omega
  refine ⟨⟨?_, ?_⟩, hmem, ?_⟩
  · exact length_filter_eq_one_of_nodup hndp ((hmem (a, b)).mpr ⟨ha, hb, hx⟩)
  · exact length_filter_eq_one_of_nodup hndp ((hmem (b, a)).mpr ⟨hb, ha, hxba⟩)
  · intro selected c
    refine ⟨Iff.rfl, ?_⟩
    unfold objective
    rw [sum_map_mul_indicator, sum_map_neg_indicator]
    ring

/-- Witness for C1 (amended): both orientations of the crossing between
candidates `(0,1)` and `(1,0)` receive exactly one crossing variable. -/
theorem crossing_vars_amended_witness :
    ((crossing_pairs (match_vars ["a", "b"] ["b", "a"] [identityStage])).filter
        fun q => q = ((0, 1), (1, 0))).length = 1 ∧
      ((crossing_pairs (match_vars ["a", "b"] ["b", "a"] [identityStage])).filter
        fun q => q = ((1, 0), (0, 1))).length = 1 :=
  (crossing_vars_amended ["a", "b"] ["b", "a"] [identityStage] (0, 1) (1, 0)
    (by decide) (by decide) (by decide)).1


/-- C2: `compute_cliques` does not return the connected components of the
candidate graph: on `[(0,1),(1,0),(1,1)]` the three candidates form one
chain-connected component — `(0,1)` and `(1,1)` share reference index 1,
`(1,1)` and `(1,0)` share hypothesis index 1 — yet the code splits them into
two cliques, because the write `sets[i+j] = sets[i]` overwrites earlier
labels without merging. The grouping stays a partition, but the
"same component iff chain-connected" direction fails. -/
theorem compute_cliques_splits_connected :
    compute_cliques [(0, 1), (1, 0), (1, 1)] = [[(0, 1)], [(1, 0), (1, 1)]] ∧
      chainConnected [(0, 1), (1, 0), (1, 1)] (0, 1) (1, 0) ∧
      ∀ g ∈ compute_cliques [(0, 1), (1, 0), (1, 1)],
        ¬((0, 1) ∈ g ∧ (1, 0) ∈ g) := by
  refine ⟨by decide, ?_, by decide⟩
  have t1 : Relation.ReflTransGen
      (fun x y => x ∈ ([(0, 1), (1, 0), (1, 1)] : List (Nat × Nat)) ∧
        y ∈ ([(0, 1), (1, 0), (1, 1)] : List (Nat × Nat)) ∧
          sharesNode x y = true) (0, 1) (1, 1) :=
    Relation.ReflTransGen.single ⟨by decide, by decide, by decide⟩
  have t2 : Relation.ReflTransGen
      (fun x y => x ∈ ([(0, 1), (1, 0), (1, 1)] : List (Nat × Nat)) ∧
        y ∈ ([(0, 1), (1, 0), (1, 1)] : List (Nat × Nat)) ∧
          sharesNode x y = true) (1, 1) (1, 0) :=
    Relation.ReflTransGen.single ⟨by decide, by decide, by decide⟩
  exact t1.trans t2

theorem sharesNode_refl (p : Nat × Nat) : sharesNode p p = true := by
  simp [sharesNode]

theorem innerFold_apply_le (ms : List (Nat × Nat)) (i : Nat) (L : List Nat) :
    ∀ (s : Nat → Nat) (p : Nat), p ≤ i → (L.foldl (innerStep ms i) s) p = s p := by
  induction L with
  | nil => intro s p _; rfl
  | cons jdx t ih =>
      intro s p hp
      rw [List.foldl_cons, ih _ p hp]
      unfold innerStep
      split
      case isTrue h =>
        unfold setsUpdate
        by_cases hpj : p = jdx
        · have hpi : p = i := by omega
          rw [if_pos hpj, hpi]
        · rw [if_neg hpj]
      case isFalse h => rfl

theorem innerFold_apply_not_mem (ms : List (Nat × Nat)) (i : Nat)
    (L : List Nat) :
    ∀ (s : Nat → Nat) (p : Nat), p ∉ L →
      (L.foldl (innerStep ms i) s) p = s p := by
  induction L with
  | nil => intro s p _; rfl
  | cons jdx t ih =>
      intro s p hp
      rw [List.mem_cons, not_or] at hp
      rw [List.foldl_cons, ih _ p hp.2]
      unfold innerStep
      split
      · unfold setsUpdate
        rw [if_neg hp.1]
      · rfl

theorem innerFold_skip (ms : List (Nat × Nat)) (i : Nat) (L : List Nat)
    (hL : ∀ j ∈ L, j < i) (s : Nat → Nat) :
    L.foldl (innerStep ms i) s = s := by
  induction L with
  | nil => rfl
  | cons jdx t ih =>
      have hj : jdx < i := hL jdx (by simp)
      rw [List.foldl_cons]
      have hstep : innerStep ms i s jdx = s := by
        unfold innerStep
        rw [if_neg (by omega)]
      rw [hstep]
      exact ih fun j hj => hL j (by simp [hj])

theorem cliqueInner_apply_le (ms : List (Nat × Nat)) (i : Nat)
    (s : Nat → Nat) (p : Nat) (hp : p ≤ i) : cliqueInner ms i s p = s p :=
  innerFold_apply_le ms i (List.range ms.length) s p hp

/-- The inner loop for `i = k` writes `sets[k]` (the value it held before
the loop) into `sets[k+1]` when matches `k` and `k+1` share a node: the
last write into `k+1` during that loop comes from the largest sharing
index `≤ k+1`. -/
theorem cliqueInner_apply_next (ms : List (Nat × Nat)) (k : Nat)
    (s : Nat → Nat) (hk : k + 1 < ms.length)
    (hsh : sharesNode (ms.getD k (0, 0)) (ms.getD (k + 1) (0, 0)) = true) :
    cliqueInner ms k s (k + 1) = s k := by
  unfold cliqueInner
  have hsplit : ms.length = (k + 2) + (ms.length - (k + 2)) := by omega
  rw [hsplit, List.range_add, List.foldl_append]
  have htail : ∀ j ∈ (List.range (ms.length - (k + 2))).map
      (fun x => (k + 2) + x), k + 1 ∉ [j] → True := fun _ _ _ => trivial
  rw [innerFold_apply_not_mem]
  · have h2 : List.range (k + 2) = (List.range k ++ [k]) ++ [k + 1] := by
      have ha : k + 2 = (k + 1) + 1 := rfl
      rw [ha, List.range_succ, List.range_succ]
    rw [h2, List.foldl_append, List.foldl_append,
      innerFold_skip ms k (List.range k) (by simp)]
    have hstep1 : List.foldl (innerStep ms k) s [k] =
        setsUpdate s k (s k) := by
      rw [List.foldl_cons, List.foldl_nil]
      unfold innerStep
      rw [if_pos ⟨le_refl k, sharesNode_refl _⟩]
    rw [hstep1, List.foldl_cons, List.foldl_nil]
    have hstep2 : innerStep ms k (setsUpdate s k (s k)) (k + 1) =
        setsUpdate (setsUpdate s k (s k)) (k + 1)
          (setsUpdate s k (s k) k) := by
      unfold innerStep
      rw [if_pos ⟨by omega, hsh⟩]
    rw [hstep2]
    unfold setsUpdate
    simp
  · intro hmem
    rw [List.mem_map] at hmem
    obtain ⟨x, _, hx⟩ := hmem
    omega

theorem outerFold_apply (ms : List (Nat × Nat)) (L : List Nat) :
    ∀ (s : Nat → Nat) (p : Nat), (∀ i ∈ L, p ≤ i) →
      (L.foldl (fun s i => cliqueInner ms i s) s) p = s p := by
  induction L with
  | nil => intro s p _; rfl
  | cons i t ih =>
      intro s p hL
      rw [List.foldl_cons, ih _ p fun j hj => hL j (by simp [hj])]
      exact cliqueInner_apply_le ms i s p (hL i (by simp))

/-- The final label of position `p` is already fixed once the outer loop
has processed iterations `0 .. p`. -/
theorem cliqueSets_eq_upto (ms : List (Nat × Nat)) (p : Nat)
    (hp : p < ms.length) :
    cliqueSets ms p =
      ((List.range (p + 1)).foldl (fun s i => cliqueInner ms i s) id) p := by
  unfold cliqueSets
  have hsplit : ms.length = (p + 1) + (ms.length - (p + 1)) := by omega
  rw [hsplit, List.range_add, List.foldl_append]
  apply outerFold_apply
  intro i hi
  rw [List.mem_map] at hi
  obtain ⟨x, _, hx⟩ := hi
  omega

/-- Consecutive matches with the same hypothesis index receive the same
final label. -/
theorem cliqueSets_succ (ms : List (Nat × Nat)) (k : Nat)
    (hk : k + 1 < ms.length)
    (hfst : (ms.getD k (0, 0)).1 = (ms.getD (k + 1) (0, 0)).1) :
    cliqueSets ms (k + 1) = cliqueSets ms k := by
  have hsh : sharesNode (ms.getD k (0, 0)) (ms.getD (k + 1) (0, 0)) = true := by
    unfold sharesNode
    rw [hfst]
    simp
  rw [cliqueSets_eq_upto ms (k + 1) hk,
    cliqueSets_eq_upto ms k (by omega)]
  have h2 : List.range (k + 2) = List.range (k + 1) ++ [k + 1] := by
    exact List.range_succ (k + 1)
  rw [h2, List.foldl_append, List.foldl_cons, List.foldl_nil]
  rw [cliqueInner_apply_le ms (k + 1) _ (k + 1) (le_refl _)]
  have h1 : List.range (k + 1) = List.range k ++ [k] := List.range_succ k
  rw [h1, List.foldl_append, List.foldl_cons, List.foldl_nil]
  rw [cliqueInner_apply_next ms k _ hk hsh]
  rw [cliqueInner_apply_le ms k _ k (le_refl _)]

/-- The hypothesis index is monotone along a lexicographically sorted
candidate list. -/
theorem fst_mono_of_pairwise (ms : List (Nat × Nat))
    (hpw : ms.Pairwise lexLt) (i j : Nat) (hij : i < j) (hj : j < ms.length) :
    (ms.getD i (0, 0)).1 ≤ (ms.getD j (0, 0)).1 := by
  rw [List.pairwise_iff_get] at hpw
  have hi : i < ms.length := lt_trans hij hj
  have := hpw ⟨i, hi⟩ ⟨j, hj⟩ hij
  rw [List.getD_eq_getElem ms (0, 0) hi, List.getD_eq_getElem ms (0, 0) hj]
  unfold lexLt at this
  simp only [List.get_eq_getElem] at this
  omega

/-- All matches of one hypothesis block (equal first component, which is
contiguous in a sorted list) receive the same final label. -/
theorem cliqueSets_block (ms : List (Nat × Nat)) (hpw : ms.Pairwise lexLt) :
    ∀ (d a : Nat), a + d < ms.length →
      (ms.getD a (0, 0)).1 = (ms.getD (a + d) (0, 0)).1 →
      cliqueSets ms a = cliqueSets ms (a + d) := by
  intro d
  induction d with
  | zero => intro a _ _; rfl
  | succ e ih =>
      intro a hlen hfst
      have h1 : (ms.getD a (0, 0)).1 ≤ (ms.getD (a + e) (0, 0)).1 := by
        rcases Nat.eq_zero_or_pos e with he | he
        · subst he; exact le_refl _
        · exact fst_mono_of_pairwise ms hpw a (a + e) (by omega) (by omega)
      have h2 : (ms.getD (a + e) (0, 0)).1 ≤ (ms.getD (a + (e + 1)) (0, 0)).1 :=
        fst_mono_of_pairwise ms hpw (a + e) (a + (e + 1)) (by omega) (by omega)
      have hae : (ms.getD a (0, 0)).1 = (ms.getD (a + e) (0, 0)).1 := by omega
      have hstep : (ms.getD (a + e) (0, 0)).1 =
          (ms.getD (a + e + 1) (0, 0)).1 := by
        have : a + (e + 1) = a + e + 1 := by omega
        rw [this] at hfst
        omega
      calc cliqueSets ms a = cliqueSets ms (a + e) := ih a (by omega) hae
        _ = cliqueSets ms (a + e + 1) :=
            (cliqueSets_succ ms (a + e) (by omega) hstep).symm
        _ = cliqueSets ms (a + (e + 1)) := by
            have : a + (e + 1) = a + e + 1 := by omega
            rw [this]

/-- Any two positions holding the same hypothesis index receive the same
final label (sorted candidate list). -/
theorem cliqueSets_eq_of_fst_eq (ms : List (Nat × Nat))
    (hpw : ms.Pairwise lexLt) (i j : Nat) (hi : i < ms.length)
    (hj : j < ms.length)
    (hfst : (ms.getD i (0, 0)).1 = (ms.getD j (0, 0)).1) :
    cliqueSets ms i = cliqueSets ms j := by
  rcases le_total i j with hij | hij
  · obtain ⟨d, rfl⟩ := Nat.exists_eq_add_of_le hij
    exact cliqueSets_block ms hpw d i hj hfst
  · obtain ⟨d, rfl⟩ := Nat.exists_eq_add_of_le hij
    exact (cliqueSets_block ms hpw d j hi hfst.symm).symm

theorem groupRuns_ne_nil (x : Nat × Nat) (rest : List (Nat × Nat)) :
    groupRuns (x :: rest) ≠ [] := by
  induction rest generalizing x with
  | nil => simp [groupRuns]
  | cons y rs ih =>
      cases hr : groupRuns (y :: rs) with
      | nil => exact absurd hr (ih y)
      | cons g gs =>
          simp only [groupRuns, hr]
          split <;> simp

theorem groupRuns_head (x : Nat × Nat) (rest : List (Nat × Nat)) :
    ∃ g gs, groupRuns (x :: rest) = (x :: g) :: gs := by
  cases rest with
  | nil => exact ⟨[], [], rfl⟩
  | cons y rs =>
      cases hr : groupRuns (y :: rs) with
      | nil => exact absurd hr (groupRuns_ne_nil y rs)
      | cons g gs =>
          simp only [groupRuns, hr]
          by_cases hxy : x.2 = y.2
          · rw [if_pos hxy]
            exact ⟨g, gs, rfl⟩
          · rw [if_neg hxy]
            exact ⟨[], g :: gs, rfl⟩

theorem groupRuns_flatten (l : List (Nat × Nat)) :
    (groupRuns l).flatten = l := by
  induction l with
  | nil => rfl
  | cons x rest ih =>
      cases rest with
      | nil => rfl
      | cons y rs =>
          cases hr : groupRuns (y :: rs) with
          | nil => exact absurd hr (groupRuns_ne_nil y rs)
          | cons g gs =>
              rw [hr] at ih
              simp only [groupRuns, hr]
              split
              · rw [List.flatten_cons]
                rw [List.flatten_cons] at ih
                simp [ih]
              · rw [List.flatten_cons, List.flatten_cons]
                rw [List.flatten_cons] at ih
                simp [ih]

theorem groupRuns_label_eq (l : List (Nat × Nat)) :
    ∀ g ∈ groupRuns l, ∀ a ∈ g, ∀ b ∈ g, a.2 = b.2 := by
  induction l with
  | nil => simp [groupRuns]
  | cons x rest ih =>
      cases rest with
      | nil =>
          intro g hg a ha b hb
          simp only [groupRuns, List.mem_singleton] at hg
          subst hg
          rw [List.mem_singleton] at ha hb
          rw [ha, hb]
      | cons y rs =>
          cases hr : groupRuns (y :: rs) with
          | nil => exact absurd hr (groupRuns_ne_nil y rs)
          | cons g0 gs =>
              rw [hr] at ih
              obtain ⟨g', gs', hg'⟩ := groupRuns_head y rs
              rw [hr] at hg'
              have hg0 : g0 = y :: g' := by
                rw [List.cons_eq_cons] at hg'
                exact hg'.1
              intro g hg a ha b hb
              simp only [groupRuns, hr] at hg
              by_cases hxy : x.2 = y.2
              · rw [if_pos hxy] at hg
                rcases List.mem_cons.mp hg with rfl | hmem
                · have hlab : ∀ u ∈ x :: g0, u.2 = x.2 := by
                    intro u hu
                    rcases List.mem_cons.mp hu with rfl | hu0
                    · rfl
                    · have hy : y ∈ g0 := by rw [hg0]; simp
                      have := ih g0 (by simp) u hu0 y hy
                      rw [this, ← hxy]
                  rw [hlab a ha, hlab b hb]
                · exact ih g (by simp [hmem]) a ha b hb
              · rw [if_neg hxy] at hg
                rcases List.mem_cons.mp hg with rfl | hmem
                · rw [List.mem_singleton] at ha hb
                  rw [ha, hb]
                · exact ih g hmem a ha b hb

theorem groupRuns_pairwise (l : List (Nat × Nat)) (hs : l.Sorted valLe) :
    (groupRuns l).Pairwise fun g1 g2 => ∀ a ∈ g1, ∀ b ∈ g2, a.2 ≠ b.2 := by
  induction l with
  | nil => simp [groupRuns]
  | cons x rest ih =>
      cases rest with
      | nil => simp [groupRuns]
      | cons y rs =>
          have hs' : (y :: rs).Sorted valLe := hs.of_cons
          have hxle : ∀ z ∈ y :: rs, valLe x z :=
            fun z hz => (List.sorted_cons.mp hs).1 z hz
          cases hr : groupRuns (y :: rs) with
          | nil => exact absurd hr (groupRuns_ne_nil y rs)
          | cons g0 gs =>
              have ihp := ih hs'
              rw [hr] at ihp
              obtain ⟨g', gs', hg'⟩ := groupRuns_head y rs
              rw [hr] at hg'
              have hg0 : g0 = y :: g' := by
                rw [List.cons_eq_cons] at hg'
                exact hg'.1
              have hy0 : y ∈ g0 := by rw [hg0]; simp
              have hlabel := groupRuns_label_eq (y :: rs)
              rw [hr] at hlabel
              simp only [groupRuns, hr]
              by_cases hxy : x.2 = y.2
              · rw [if_pos hxy]
                rw [List.pairwise_cons] at ihp ⊢
                refine ⟨?_, ihp.2⟩
                intro G hG a ha b hb
                rcases List.mem_cons.mp ha with rfl | ha0
                · have := ihp.1 G hG y hy0 b hb
                  rw [hxy]
                  exact this
                · exact ihp.1 G hG a ha0 b hb
              · rw [if_neg hxy]
                have hbig : ∀ b ∈ (y :: rs), x.2 < b.2 := by
                  intro b hb
                  have h1 : valLe x b := hxle b hb
                  have h2 : valLe y b := by
                    rcases List.mem_cons.mp hb with rfl | hb0
                    · unfold valLe; exact le_refl _
                    · exact (List.sorted_cons.mp hs').1 b hb0
                  unfold valLe at h1 h2
                  have hxy' : x.2 ≤ y.2 := by
                    have := hxle y (by simp)
                    unfold valLe at this
                    exact this
                  omega
                rw [List.pairwise_cons]
                refine ⟨?_, ihp⟩
                intro G hG a ha b hb
                rw [List.mem_singleton] at ha
                subst ha
                have hbmem : b ∈ (y :: rs) := by
                  have : b ∈ (groupRuns (y :: rs)).flatten := by
                    rw [List.mem_flatten]
                    exact ⟨G, by rw [hr]; exact hG, hb⟩
                  rwa [groupRuns_flatten] at this
                have := hbig b hbmem
                omega

theorem mem_foldr_union (L : List (Finset Nat)) (h : Nat) :
    h ∈ L.foldr (· ∪ ·) ∅ ↔ ∃ F ∈ L, h ∈ F := by
  induction L with
  | nil => simp
  | cons a t ih =>
      rw [List.foldr_cons, Finset.mem_union, ih]
      simp

theorem disjoint_foldr_union (a : Finset Nat) (L : List (Finset Nat))
    (h : ∀ b ∈ L, Disjoint a b) : Disjoint a (L.foldr (· ∪ ·) ∅) := by
  induction L with
  | nil => simp
  | cons b t ih =>
      rw [List.foldr_cons, Finset.disjoint_union_right]
      exact ⟨h b (by simp), ih fun x hx => h x (by simp [hx])⟩

theorem sum_card_foldr (L : List (Finset Nat)) (h : L.Pairwise Disjoint) :
    (L.map Finset.card).sum = (L.foldr (· ∪ ·) ∅).card := by
  induction L with
  | nil => simp
  | cons a t ih =>
      rw [List.pairwise_cons] at h
      rw [List.map_cons, List.sum_cons, List.foldr_cons,
        Finset.card_union_of_disjoint (disjoint_foldr_union a t h.1), ih h.2]

/-- The cardinality constraint of the model: for a lexicographically sorted
candidate list over hypothesis indices `< n` that contains every diagonal
pair, `required_matches` equals `n` — every group the (defective) labelling
produces is a union of complete same-hypothesis blocks, each containing its
diagonal pair, so per group `min(#hyp, #ref) = #hyp` and the hypothesis
blocks partition `{0, ..., n-1}`. -/
theorem required_matches_eq (ms : List (Nat × Nat)) (n : Nat)
    (hpw : ms.Pairwise lexLt)
    (hsub : ∀ p ∈ ms, p.1 < n)
    (hdiag : ∀ i, i < n → (i, i) ∈ ms) :
    required_matches ms = n := by
  have hsort : (List.insertionSort valLe (cliqueItems ms)).Sorted valLe :=
    List.sorted_insertionSort valLe (cliqueItems ms)
  have hperm : (List.insertionSort valLe (cliqueItems ms)).Perm
      (cliqueItems ms) := List.perm_insertionSort valLe (cliqueItems ms)
  have hitem : ∀ p ∈ cliqueItems ms,
      p.1 < ms.length ∧ p.2 = cliqueSets ms p.1 := by
    intro p hp
    unfold cliqueItems at hp
    rw [List.mem_map] at hp
    obtain ⟨idx, hidx, rfl⟩ := hp
    rw [List.mem_range] at hidx
    exact ⟨hidx, rfl⟩
  have hitem_mem : ∀ idx, idx < ms.length →
      (idx, cliqueSets ms idx) ∈ cliqueItems ms := by
    intro idx hidx
    unfold cliqueItems
    rw [List.mem_map]
    exact ⟨idx, by rw [List.mem_range]; exact hidx, rfl⟩
  have hgetD_mem : ∀ j, j < ms.length → ms.getD j (0, 0) ∈ ms := by
    intro j hj
    rw [List.getD_eq_getElem ms (0, 0) hj]
    exact List.getElem_mem hj
  have hdiag_idx : ∀ h, h < n →
      ∃ j, j < ms.length ∧ ms.getD j (0, 0) = (h, h) := by
    intro h hh
    have hmem := hdiag h hh
    rw [List.mem_iff_getElem] at hmem
    obtain ⟨j, hj, hje⟩ := hmem
    exact ⟨j, hj, by rw [List.getD_eq_getElem ms (0, 0) hj]; exact hje⟩
  have hflat := groupRuns_flatten (List.insertionSort valLe (cliqueItems ms))
  have hgp := groupRuns_pairwise _ hsort
  have hg_item : ∀ g ∈ groupRuns (List.insertionSort valLe (cliqueItems ms)),
      ∀ p ∈ g, p.1 < ms.length ∧ p.2 = cliqueSets ms p.1 := by
    intro g hg p hp
    have hpm : p ∈ (groupRuns
        (List.insertionSort valLe (cliqueItems ms))).flatten := by
      rw [List.mem_flatten]
      exact ⟨g, hg, hp⟩
    rw [hflat] at hpm
    exact hitem p (hperm.mem_iff.mp hpm)
  have hsame : ∀ g1 ∈ groupRuns (List.insertionSort valLe (cliqueItems ms)),
      ∀ g2 ∈ groupRuns (List.insertionSort valLe (cliqueItems ms)),
      ∀ a ∈ g1, ∀ b ∈ g2, a.2 = b.2 → g1 = g2 := by
    intro g1 hg1 g2 hg2 a ha b hb heq
    by_contra hne
    have hsymm : Symmetric fun g1 g2 : List (Nat × Nat) =>
        ∀ a ∈ g1, ∀ b ∈ g2, a.2 ≠ b.2 := by
      intro u v huv a ha b hb
      exact fun he => (huv b hb a ha) he.symm
    exact (hgp.forall hsymm hg1 hg2 hne) a ha b hb heq
  have hjoin : ∀ g ∈ groupRuns (List.insertionSort valLe (cliqueItems ms)),
      ∀ p ∈ g, ∀ j, j < ms.length →
      (ms.getD j (0, 0)).1 = (ms.getD p.1 (0, 0)).1 →
      (j, cliqueSets ms j) ∈ g := by
    intro g hg p hp j hj hfst
    have hpit := hg_item g hg p hp
    have hlab : cliqueSets ms j = cliqueSets ms p.1 :=
      cliqueSets_eq_of_fst_eq ms hpw j p.1 hj hpit.1 hfst
    have hmemS : (j, cliqueSets ms j) ∈
        List.insertionSort valLe (cliqueItems ms) :=
      hperm.mem_iff.mpr (hitem_mem j hj)
    rw [← hflat, List.mem_flatten] at hmemS
    obtain ⟨g2, hg2, hjg2⟩ := hmemS
    have hlabels : ((j, cliqueSets ms j) : Nat × Nat).2 = p.2 := by
      rw [hpit.2]
      exact hlab
    have := hsame g2 hg2 g hg (j, cliqueSets ms j) hjg2 p hp hlabels
    rwa [this] at hjg2
  have hHR : ∀ g ∈ groupRuns (List.insertionSort valLe (cliqueItems ms)),
      blockFst ms g ⊆ blockSnd ms g := by
    intro g hg h hh
    unfold blockFst at hh
    rw [List.mem_toFinset, List.mem_map] at hh
    obtain ⟨p, hp, hph⟩ := hh
    have hpit := hg_item g hg p hp
    have hhn : h < n := by
      have := hsub (ms.getD p.1 (0, 0)) (hgetD_mem p.1 hpit.1)
      omega
    obtain ⟨j, hj, hje⟩ := hdiag_idx h hhn
    have hfst : (ms.getD j (0, 0)).1 = (ms.getD p.1 (0, 0)).1 := by
      rw [hje, hph]
    have hjg := hjoin g hg p hp j hj hfst
    unfold blockSnd
    rw [List.mem_toFinset, List.mem_map]
    refine ⟨(j, cliqueSets ms j), hjg, ?_⟩
    rw [hje]
  have hterm : ∀ g ∈ groupRuns (List.insertionSort valLe (cliqueItems ms)),
      min (((g.map fun p => ms.getD p.1 (0, 0)).map Prod.fst).dedup.length)
          (((g.map fun p => ms.getD p.1 (0, 0)).map Prod.snd).dedup.length) =
        (blockFst ms g).card := by
    intro g hg
    have e1 : (g.map fun p => ms.getD p.1 (0, 0)).map Prod.fst =
        g.map fun p => (ms.getD p.1 (0, 0)).1 := by
      rw [List.map_map]
      rfl
    have e2 : (g.map fun p => ms.getD p.1 (0, 0)).map Prod.snd =
        g.map fun p => (ms.getD p.1 (0, 0)).2 := by
      rw [List.map_map]
      rfl
    rw [e1, e2, ← List.card_toFinset, ← List.card_toFinset]
    exact min_eq_left (Finset.card_le_card (hHR g hg))
  have hdisj : ((groupRuns
      (List.insertionSort valLe (cliqueItems ms))).map
        (blockFst ms)).Pairwise Disjoint := by
    rw [List.pairwise_map]
    refine hgp.imp_of_mem ?_
    intro g1 g2 hg1 hg2 hR
    rw [Finset.disjoint_left]
    intro h hh1 hh2
    unfold blockFst at hh1 hh2
    rw [List.mem_toFinset, List.mem_map] at hh1 hh2
    obtain ⟨p, hp, hph⟩ := hh1
    obtain ⟨q, hq, hqh⟩ := hh2
    have hpit := hg_item g1 hg1 p hp
    have hqit := hg_item g2 hg2 q hq
    have hlab : cliqueSets ms p.1 = cliqueSets ms q.1 :=
      cliqueSets_eq_of_fst_eq ms hpw p.1 q.1 hpit.1 hqit.1 (by rw [hph, hqh])
    have : p.2 = q.2 := by rw [hpit.2, hqit.2, hlab]
    exact hR p hp q hq this
  have hcover : (((groupRuns
      (List.insertionSort valLe (cliqueItems ms))).map
        (blockFst ms)).foldr (· ∪ ·) ∅) = Finset.range n := by
    ext h
    rw [mem_foldr_union, Finset.mem_range]
    constructor
    · rintro ⟨F, hF, hhF⟩
      rw [List.mem_map] at hF
      obtain ⟨g, hg, rfl⟩ := hF
      unfold blockFst at hhF
      rw [List.mem_toFinset, List.mem_map] at hhF
      obtain ⟨p, hp, hph⟩ := hhF
      have hpit := hg_item g hg p hp
      have := hsub (ms.getD p.1 (0, 0)) (hgetD_mem p.1 hpit.1)
      omega
    · intro hh
      obtain ⟨j, hj, hje⟩ := hdiag_idx h hh
      have hmemS : (j, cliqueSets ms j) ∈
          List.insertionSort valLe (cliqueItems ms) :=
        hperm.mem_iff.mpr (hitem_mem j hj)
      rw [← hflat, List.mem_flatten] at hmemS
      obtain ⟨g, hg, hjg⟩ := hmemS
      refine ⟨blockFst ms g, List.mem_map.mpr ⟨g, hg, rfl⟩, ?_⟩
      unfold blockFst
      rw [List.mem_toFinset, List.mem_map]
      refine ⟨(j, cliqueSets ms j), hjg, ?_⟩
      rw [hje]
  have hrw : required_matches ms =
      (((groupRuns (List.insertionSort valLe (cliqueItems ms))).map
        (blockFst ms)).map Finset.card).sum := by
    unfold required_matches compute_cliques
    rw [List.map_map, List.map_map]
    congr 1
    apply List.map_congr_left
    intro g hg
    exact hterm g hg
  rw [hrw, sum_card_foldr _ hdisj, hcover, Finset.card_range]

theorem foldl_max_bounds (xs : List ℚ) :
    ∀ x : ℚ, x ≤ xs.foldl max x ∧ ∀ a ∈ xs, a ≤ xs.foldl max x := by
  induction xs with
  | nil => intro x; exact ⟨le_refl x, by simp⟩
  | cons y t ih =>
      intro x
      rw [List.foldl_cons]
      obtain ⟨h1, h2⟩ := ih (max x y)
      refine ⟨le_trans (le_max_left x y) h1, ?_⟩
      intro a ha
      rcases List.mem_cons.mp ha with rfl | hat
      · exact le_trans (le_max_right x a) h1
      · exact h2 a hat

theorem foldl_max_mem (xs : List ℚ) :
    ∀ x : ℚ, xs.foldl max x = x ∨ xs.foldl max x ∈ xs := by
  induction xs with
  | nil => intro x; exact Or.inl rfl
  | cons y t ih =>
      intro x
      rw [List.foldl_cons]
      rcases ih (max x y) with h | h
      · rcases max_choice x y with hm | hm
        · exact Or.inl (by rw [h, hm])
        · exact Or.inr (by rw [h, hm]; simp)
      · exact Or.inr (by simp [h])

theorem max?_le_of_mem {l : List ℚ} {a v : ℚ} (ha : a ∈ l)
    (hv : l.max? = some v) : a ≤ v := by
  cases l with
  | nil => cases ha
  | cons x xs =>
      have he : (x :: xs).max? = some (xs.foldl max x) := rfl
      rw [he] at hv
      have hv' : v = xs.foldl max x := by
        cases hv
        rfl
      subst hv'
      rcases List.mem_cons.mp ha with rfl | hat
      · exact (foldl_max_bounds xs a).1
      · exact (foldl_max_bounds xs x).2 a hat

theorem max?_mem {l : List ℚ} {v : ℚ} (hv : l.max? = some v) : v ∈ l := by
  cases l with
  | nil => cases hv
  | cons x xs =>
      have he : (x :: xs).max? = some (xs.foldl max x) := rfl
      rw [he] at hv
      have hv' : v = xs.foldl max x := by
        cases hv
        rfl
      subst hv'
      rcases foldl_max_mem xs x with h | h
      · rw [h]; simp
      · simp [h]

theorem max?_isSome_iff (l : List ℚ) : l.max?.isSome = true ↔ l ≠ [] := by
  cases l <;> simp [List.max?]

/-- Membership in the candidate list of `align`. -/
theorem match_vars_mem {σ : Type} [DecidableEq σ]
    (hypothesis reference : List String) (stages : List (MStage σ))
    (p : Nat × Nat) :
    p ∈ match_vars hypothesis reference stages ↔
      p.1 < hypothesis.length ∧ p.2 < reference.length ∧
        (match_weight stages (hypothesis.getD p.1 "")
          (reference.getD p.2 "")).isSome = true := by
  cases p with
  | mk h r =>
      unfold match_vars
      rw [List.mem_flatMap]
      constructor
      · rintro ⟨h0, hh0, hmem⟩
        rw [List.mem_map] at hmem
        obtain ⟨r0, hr0, heq⟩ := hmem
        rw [List.mem_filter, List.mem_range] at hr0
        rw [List.mem_range] at hh0
        have hh : h0 = h ∧ r0 = r := by
          rw [Prod.mk.injEq] at heq
          exact ⟨heq.1, heq.2⟩
        obtain ⟨rfl, rfl⟩ := hh
        exact ⟨hh0, hr0.1, by simpa using hr0.2⟩
      · rintro ⟨hh, hr, hw⟩
        refine ⟨h, by rw [List.mem_range]; exact hh, ?_⟩
        rw [List.mem_map]
        refine ⟨r, ?_, rfl⟩
        rw [List.mem_filter, List.mem_range]
        exact ⟨hr, by simpa using hw⟩

/-- On identical sentences every stage agrees with itself, so every
diagonal pair is a candidate and carries the maximum stage weight. -/
theorem agreeingStages_self {σ : Type} [DecidableEq σ]
    (stages : List (MStage σ)) (t : String) :
    agreeingStages stages t t = stages := by
  unfold agreeingStages
  rw [List.filter_eq_self]
  intro s _
  simp

theorem objective_eq {σ : Type} [DecidableEq σ]
    (hypothesis reference : List String) (stages : List (MStage σ))
    (S : Finset (Nat × Nat)) (c : (Nat × Nat) × (Nat × Nat) → Bool) :
    objective hypothesis reference stages S c =
      (((match_vars hypothesis reference stages).filter
          fun p => p ∈ S).map (pairWeight hypothesis reference stages)).sum -
        ((crossing_pairs (match_vars hypothesis reference stages)).countP
          (fun p => c p) : ℚ) := by
  unfold objective
  rw [sum_map_mul_indicator, sum_map_neg_indicator]
  ring

theorem filter_mem_length {S : Finset (Nat × Nat)}
    {keys : List (Nat × Nat)} (hnd : keys.Nodup)
    (hsub : ∀ p ∈ S, p ∈ keys) :
    (keys.filter fun p => p ∈ S).length = S.card := by
  have hndf : (keys.filter fun p => p ∈ S).Nodup := hnd.filter _
  have heq : (keys.filter fun p => p ∈ S).toFinset = S := by
    ext x
    rw [List.mem_toFinset, List.mem_filter]
    constructor
    · rintro ⟨_, hx⟩
      simpa using hx
    · intro hx
      exact ⟨hsub x hx, by simpa using hx⟩
  calc (keys.filter fun p => p ∈ S).length
      = (keys.filter fun p => p ∈ S).dedup.length := by
        rw [List.dedup_eq_self.mpr hndf]
    _ = (keys.filter fun p => p ∈ S).toFinset.card :=
        (List.card_toFinset _).symm
    _ = S.card := by rw [heq]

theorem pairWeight_diag {σ : Type} [DecidableEq σ] (texts : List String)
    (stages : List (MStage σ)) (hst : stages ≠ []) (i : Nat) :
    pairWeight texts texts stages (i, i) =
        ((stages.map MStage.weight).max?).getD 0 ∧
      (match_weight stages (texts.getD i "") (texts.getD i "")).isSome =
        true := by
  unfold pairWeight match_weight
  rw [agreeingStages_self]
  refine ⟨rfl, ?_⟩
  rw [max?_isSome_iff]
  simp [hst]

theorem pairWeight_le {σ : Type} [DecidableEq σ]
    (hypothesis reference : List String) (stages : List (MStage σ))
    (hst : stages ≠ []) (p : Nat × Nat)
    (hp : p ∈ match_vars hypothesis reference stages) :
    pairWeight hypothesis reference stages p ≤
      ((stages.map MStage.weight).max?).getD 0 := by
  have hw := ((match_vars_mem hypothesis reference stages p).mp hp).2.2
  obtain ⟨v, hv⟩ := Option.isSome_iff_exists.mp hw
  have hv' : ((agreeingStages stages (hypothesis.getD p.1 "")
      (reference.getD p.2 "")).map MStage.weight).max? = some v := hv
  have hvm : v ∈ (agreeingStages stages (hypothesis.getD p.1 "")
      (reference.getD p.2 "")).map MStage.weight := max?_mem hv'
  have hvm2 : v ∈ stages.map MStage.weight := by
    rw [List.mem_map] at hvm ⊢
    obtain ⟨s, hs, rfl⟩ := hvm
    exact ⟨s, List.mem_of_mem_filter hs, rfl⟩
  obtain ⟨w, hwm⟩ := Option.isSome_iff_exists.mp
    ((max?_isSome_iff (stages.map MStage.weight)).mpr (by simp [hst]))
  unfold pairWeight
  rw [hv, hwm]
  simp only [Option.getD_some]
  exact max?_le_of_mem hvm2 hwm

theorem mem_diagSel (n : Nat) (p : Nat × Nat) :
    p ∈ diagSel n ↔ p.1 = p.2 ∧ p.1 < n := by
  unfold diagSel
  rw [Finset.mem_image]
  constructor
  · rintro ⟨i, hi, rfl⟩
    rw [Finset.mem_range] at hi
    exact ⟨rfl, hi⟩
  · rintro ⟨heq, hlt⟩
    refine ⟨p.1, Finset.mem_range.mpr hlt, ?_⟩
    calc (p.1, p.1) = (p.1, p.2) := by rw [heq]
      _ = p := rfl

theorem diagSel_card (n : Nat) : (diagSel n).card = n := by
  unfold diagSel
  rw [Finset.card_image_of_injective _ fun a b hab => by
    simpa using congrArg Prod.fst hab]
  exact Finset.card_range n

theorem inducedCross_constraints (keys : List (Nat × Nat))
    (S : Finset (Nat × Nat)) :
    crossing_constraints_hold keys S (inducedCross S) := by
  intro p _
  unfold inducedCross
  by_cases h1 : p.1 ∈ S <;> by_cases h2 : p.2 ∈ S <;>
    simp [h1, h2]

theorem crossesb_swap (a b : Nat × Nat) :
    crossesb (Prod.swap a) (Prod.swap b) = crossesb a b := by
  have h1 := crossesb_iff (Prod.swap a) (Prod.swap b)
  have h2 := crossesb_iff a b
  rw [Bool.eq_iff_iff, h1, h2]
  simp only [Prod.fst_swap, Prod.snd_swap]
  constructor <;> (intro h3; omega)

theorem half_diag (n : Nat) (S : Finset (Nat × Nat))
    (hsub : ∀ p ∈ S, p.1 < n ∧ p.2 < n)
    (hcard : S.card = n)
    (hfst : ∀ p ∈ S, ∀ q ∈ S, p.1 = q.1 → p = q)
    (hsnd : ∀ p ∈ S, ∀ q ∈ S, p.2 = q.2 → p = q)
    (hnc : ∀ p ∈ S, ∀ q ∈ S, crossesb p q = false) :
    ∀ p ∈ S, p.1 ≤ p.2 := by
  have hinjf : Set.InjOn Prod.fst (S : Set (Nat × Nat)) :=
    fun p hp q hq h => hfst p hp q hq h
  have hinjs : Set.InjOn Prod.snd (S : Set (Nat × Nat)) :=
    fun p hp q hq h => hsnd p hp q hq h
  have himgf : S.image Prod.fst = Finset.range n := by
    apply Finset.eq_of_subset_of_card_le
    · intro x hx
      rw [Finset.mem_image] at hx
      obtain ⟨q, hq, rfl⟩ := hx
      exact Finset.mem_range.mpr (hsub q hq).1
    · rw [Finset.card_range, Finset.card_image_of_injOn hinjf, hcard]
  intro p hp
  by_contra hlt
  push_neg at hlt
  have hAinjf : Set.InjOn Prod.fst
      ((S.filter fun q => q.1 < p.1 : Finset (Nat × Nat)) :
        Set (Nat × Nat)) :=
    Set.InjOn.mono (Finset.coe_subset.mpr (Finset.filter_subset _ _)) hinjf
  have hAinjs : Set.InjOn Prod.snd
      ((S.filter fun q => q.1 < p.1 : Finset (Nat × Nat)) :
        Set (Nat × Nat)) :=
    Set.InjOn.mono (Finset.coe_subset.mpr (Finset.filter_subset _ _)) hinjs
  have hAimg : (S.filter fun q => q.1 < p.1).image Prod.fst =
      Finset.range p.1 := by
    ext x
    rw [Finset.mem_image, Finset.mem_range]
    constructor
    · rintro ⟨q, hq, rfl⟩
      rw [Finset.mem_filter] at hq
      exact hq.2
    · intro hx
      have hxn : x < n := lt_trans hx (hsub p hp).1
      have hximg : x ∈ S.image Prod.fst := by
        rw [himgf]
        exact Finset.mem_range.mpr hxn
      rw [Finset.mem_image] at hximg
      obtain ⟨q, hqS, hqx⟩ := hximg
      exact ⟨q, Finset.mem_filter.mpr ⟨hqS, by omega⟩, hqx⟩
  have hAcard : (S.filter fun q => q.1 < p.1).card = p.1 := by
    have := Finset.card_image_of_injOn hAinjf
    rw [hAimg, Finset.card_range] at this
    exact this.symm
  have hAsnd : (S.filter fun q => q.1 < p.1).image Prod.snd ⊆
      Finset.range p.2 := by
    intro x hx
    rw [Finset.mem_image] at hx
    obtain ⟨q, hq, rfl⟩ := hx
    rw [Finset.mem_filter] at hq
    rw [Finset.mem_range]
    have hcr := hnc q hq.1 p hp
    have hniff : ¬((q.1 < p.1 ∧ p.2 < q.2) ∨ (p.1 < q.1 ∧ q.2 < p.2)) := by
      rw [← crossesb_iff q p, hcr]
      simp
    have hqne : q.2 ≠ p.2 := by
      intro he
      have := hsnd q hq.1 p hp he
      subst this
      omega
    omega
  have hle : (S.filter fun q => q.1 < p.1).card ≤ p.2 := by
    have h1 := Finset.card_image_of_injOn hAinjs
    have h2 := Finset.card_le_card hAsnd
    rw [h1, Finset.card_range] at h2
    exact h2
  omega

theorem no_crossing_eq_diag (n : Nat) (S : Finset (Nat × Nat))
    (hsub : ∀ p ∈ S, p.1 < n ∧ p.2 < n)
    (hcard : S.card = n)
    (hfst : ∀ p ∈ S, ∀ q ∈ S, p.1 = q.1 → p = q)
    (hsnd : ∀ p ∈ S, ∀ q ∈ S, p.2 = q.2 → p = q)
    (hnc : ∀ p ∈ S, ∀ q ∈ S, crossesb p q = false) :
    S = diagSel n := by
  have h1 := half_diag n S hsub hcard hfst hsnd hnc
  have h2 : ∀ p ∈ S, p.2 ≤ p.1 := by
    have hswap := half_diag n (S.image Prod.swap)
      (by
        intro q hq
        rw [Finset.mem_image] at hq
        obtain ⟨q0, hq0, rfl⟩ := hq
        exact ⟨(hsub q0 hq0).2, (hsub q0 hq0).1⟩)
      (by rw [Finset.card_image_of_injective _ Prod.swap_injective, hcard])
      (by
        intro p hp q hq he
        rw [Finset.mem_image] at hp hq
        obtain ⟨p0, hp0, rfl⟩ := hp
        obtain ⟨q0, hq0, rfl⟩ := hq
        simp only [Prod.fst_swap] at he
        rw [hsnd p0 hp0 q0 hq0 he])
      (by
        intro p hp q hq he
        rw [Finset.mem_image] at hp hq
        obtain ⟨p0, hp0, rfl⟩ := hp
        obtain ⟨q0, hq0, rfl⟩ := hq
        simp only [Prod.snd_swap] at he
        rw [hfst p0 hp0 q0 hq0 he])
      (by
        intro p hp q hq
        rw [Finset.mem_image] at hp hq
        obtain ⟨p0, hp0, rfl⟩ := hp
        obtain ⟨q0, hq0, rfl⟩ := hq
        rw [crossesb_swap]
        exact hnc p0 hp0 q0 hq0)
    intro p hp
    have hm : p.swap ∈ S.image Prod.swap := Finset.mem_image_of_mem _ hp
    have := hswap p.swap hm
    simpa using this
  apply Finset.eq_of_subset_of_card_le
  · intro p hp
    rw [mem_diagSel]
    have ha := h1 p hp
    have hb := h2 p hp
    exact ⟨by omega, (hsub p hp).1⟩
  · rw [diagSel_card, hcard]

theorem list_sum_const (l : List ℚ) (m : ℚ) (h : ∀ x ∈ l, x = m) :
    l.sum = (l.length : ℚ) * m := by
  induction l with
  | nil => simp
  | cons x t ih =>
      rw [List.sum_cons, List.length_cons, h x (by simp),
        ih fun y hy => h y (by simp [hy])]
      push_cast
      ring

theorem filter_eq_singleton_of_nodup (l : List Nat) (hnd : l.Nodup)
    (h : Nat) (hm : h ∈ l) : (l.filter fun r => r = h) = [h] := by
  induction l with
  | nil => cases hm
  | cons y t ih =>
      rw [List.nodup_cons] at hnd
      by_cases hy : y = h
      · subst hy
        rw [List.filter_cons_of_pos (by simp)]
        have : (t.filter fun r => r = y) = [] := by
          rw [List.filter_eq_nil_iff]
          intro a ha
          simp only [decide_eq_true_eq]
          rintro rfl
          exact hnd.1 ha
        rw [this]
      · have hmt : h ∈ t := by
          rcases List.mem_cons.mp hm with rfl | hmt
          · exact absurd rfl hy
          · exact hmt
        rw [List.filter_cons_of_neg (by simpa using hy)]
        exact ih hnd.2 hmt

/-- Filtering the candidate list of identical sentences down to the diagonal
selection yields the full diagonal, in order. -/
theorem alignResult_diag {σ : Type} [DecidableEq σ] (texts : List String)
    (stages : List (MStage σ)) (hst : stages ≠ []) :
    alignResult texts texts stages (diagSel texts.length) =
      (List.range texts.length).map fun i => (i, i) := by
  unfold alignResult match_vars
  rw [List.filter_flatMap]
  have hcongr : ∀ h ∈ List.range texts.length,
      ((((List.range texts.length).filter fun r =>
          (match_weight stages (texts.getD h "")
            (texts.getD r "")).isSome).map fun r => (h, r)).filter
        fun p => p ∈ diagSel texts.length) = [(h, h)] := by
    intro h hh
    rw [List.mem_range] at hh
    rw [List.filter_map]
    have hpred : ∀ r ∈ (List.range texts.length).filter fun r =>
        (match_weight stages (texts.getD h "") (texts.getD r "")).isSome,
        ((fun p => decide (p ∈ diagSel texts.length)) ∘ fun r => (h, r)) r =
          decide (r = h) := by
      intro r _
      simp only [Function.comp_apply]
      rw [decide_eq_decide]
      rw [mem_diagSel]
      constructor
      · rintro ⟨he, _⟩
        exact he.symm
      · rintro rfl
        exact ⟨rfl, hh⟩
    rw [List.filter_congr hpred]
    have hnd : ((List.range texts.length).filter fun r =>
        (match_weight stages (texts.getD h "")
          (texts.getD r "")).isSome).Nodup :=
      (List.nodup_range _).filter _
    have hmem : h ∈ (List.range texts.length).filter fun r =>
        (match_weight stages (texts.getD h "")
          (texts.getD r "")).isSome := by
      rw [List.mem_filter, List.mem_range]
      exact ⟨hh, by simpa using (pairWeight_diag texts stages hst h).2⟩
    rw [filter_eq_singleton_of_nodup _ hnd h hmem]
    rfl
  calc ((List.range texts.length).flatMap fun h =>
        ((((List.range texts.length).filter fun r =>
          (match_weight stages (texts.getD h "")
            (texts.getD r "")).isSome).map fun r => (h, r)).filter
          fun p => p ∈ diagSel texts.length))
      = (List.range texts.length).flatMap fun h => [(h, h)] := by
        rw [List.flatMap_def, List.flatMap_def]
        congr 1
        exact List.map_congr_left hcongr
    _ = (List.range texts.length).map fun i => (i, i) :=
        (List.map_eq_flatMap _ _).symm

/-- Objective value of the diagonal assignment: every diagonal weight is the
maximum stage weight and no two diagonal matches cross. -/
theorem diag_objective {σ : Type} [DecidableEq σ] (texts : List String)
    (stages : List (MStage σ)) (hst : stages ≠ []) :
    objective texts texts stages (diagSel texts.length)
        (inducedCross (diagSel texts.length)) =
      (texts.length : ℚ) * ((stages.map MStage.weight).max?).getD 0 := by
  rw [objective_eq]
  have hc0 : (crossing_pairs (match_vars texts texts stages)).countP
      (fun p => inducedCross (diagSel texts.length) p) = 0 := by
    rw [List.countP_eq_zero]
    intro p hp hcp
    unfold crossing_pairs at hp
    rw [List.mem_filter] at hp
    have hcross : crossesb p.1 p.2 = true := by simpa using hp.2
    unfold inducedCross at hcp
    rw [decide_eq_true_eq] at hcp
    obtain ⟨h1, h2⟩ := hcp
    rw [mem_diagSel] at h1 h2
    rw [crossesb_iff] at hcross
    omega
  rw [hc0]
  simp only [Nat.cast_zero, sub_zero]
  have hsubk : ∀ p ∈ diagSel texts.length,
      p ∈ match_vars texts texts stages := by
    intro p hp
    rw [mem_diagSel] at hp
    rw [match_vars_mem]
    refine ⟨hp.2, by omega, ?_⟩
    have he : texts.getD p.2 "" = texts.getD p.1 "" := by rw [hp.1]
    rw [he]
    exact (pairWeight_diag texts stages hst p.1).2
  have hconst : ∀ x ∈ ((match_vars texts texts stages).filter
      fun p => p ∈ diagSel texts.length).map
        (pairWeight texts texts stages),
      x = ((stages.map MStage.weight).max?).getD 0 := by
    intro x hx
    rw [List.mem_map] at hx
    obtain ⟨p, hp, rfl⟩ := hx
    rw [List.mem_filter] at hp
    have hd : p ∈ diagSel texts.length := by simpa using hp.2
    rw [mem_diagSel] at hd
    have hpp : p = (p.1, p.1) := by
      calc p = (p.1, p.2) := rfl
        _ = (p.1, p.1) := by rw [hd.1]
    rw [hpp]
    exact (pairWeight_diag texts stages hst p.1).1
  rw [list_sum_const _ _ hconst, List.length_map,
    filter_mem_length (match_vars_nodup texts texts stages) hsubk,
    diagSel_card]

theorem diagFoldAux (k : Nat) :
    ∀ (j c : Nat),
      ((((List.range' (j + 1) k).map fun i => (i, i)).foldl chunkStep
        ((j : Int), (j : Int), c))).2.2 = c := by
  induction k with
  | zero => intro j c; rfl
  | succ e ih =>
      intro j c
      rw [List.range'_succ, List.map_cons, List.foldl_cons]
      have hstep : chunkStep ((j : Int), (j : Int), c) (j + 1, j + 1) =
          (((j + 1 : Nat) : Int), ((j + 1 : Nat) : Int), c) := by
        unfold chunkStep
        rw [if_neg (by push_cast; omega)]
      rw [hstep]
      exact ih (j + 1) c

theorem diag_sorted (n : Nat) :
    ((List.range n).map fun i => (i, i)).Sorted lexLe := by
  unfold List.Sorted
  rw [List.pairwise_map]
  exact (List.pairwise_lt_range n).imp fun hij => Or.inl hij

/-- The diagonal alignment forms a single chunk. -/
theorem count_chunks_diag (n : Nat) (hn : 1 ≤ n) :
    count_chunks ((List.range n).map fun i => (i, i)) = 1 := by
  unfold count_chunks sortPairs
  rw [List.Sorted.insertionSort_eq (diag_sorted n)]
  cases n with
  | zero => omega
  | succ k =>
      rw [List.range_eq_range', List.range'_succ, List.map_cons,
        List.foldl_cons]
      have hstep : chunkStep (-2, -2, 0) ((0 : Nat), (0 : Nat)) =
          ((0 : Int), (0 : Int), 1) := by
        unfold chunkStep
        rw [if_pos (by norm_num)]
        rfl
      rw [hstep]
      have h01 : (0 + 1 : Nat) = 1 := rfl
      have := diagFoldAux k 0 1
      simpa using this

/-- The meteor score of a full diagonal alignment of length `n ≥ 1` is 1. -/
theorem meteorScore_diag (n : Nat) (hn : 1 ≤ n) :
    meteorScore n n ((List.range n).map fun i => (i, i)) = 1 := by
  have hlen : ((List.range n).map fun i => (i, i)).length = n := by simp
  have hch := count_chunks_diag n hn
  unfold meteorScore
  rw [if_neg (by omega : ¬(n = 0 ∨ n = 0)), hlen, hch,
    if_neg (by omega : ¬n = 0), if_neg (by omega : ¬(1 : Nat) < 1)]
  have hq : (n : ℚ) ≠ 0 := by
    exact_mod_cast by omega
  rw [div_self hq]
  norm_num

/-- C4: on identical token sequences (with at least one stage and at least
one token), every optimal solution of the alignment model selects exactly
the full diagonal, so `align` returns `[(0,0), ..., (n-1,n-1)]`, its chunk
count is 1, and the meteor score of the pair is 1. -/
theorem align_identical {σ : Type} [DecidableEq σ] (texts : List String)
    (stages : List (MStage σ)) (htexts : texts ≠ []) (hstages : stages ≠ [])
    (S : Finset (Nat × Nat)) (c : (Nat × Nat) × (Nat × Nat) → Bool)
    (hopt : optimalAlignment texts texts stages S c) :
    alignResult texts texts stages S =
        (List.range texts.length).map (fun i => (i, i)) ∧
      count_chunks (alignResult texts texts stages S) = 1 ∧
      meteorScore texts.length texts.length
        (alignResult texts texts stages S) = 1 := by
  have hn : 1 ≤ texts.length := List.length_pos.mpr htexts
  unfold optimalAlignment at hopt
  obtain ⟨hfeas, hmax⟩ := hopt
  unfold feasible at hfeas
  obtain ⟨hSsub, hu, hScard, hcc⟩ := hfeas
  unfold uniqueness_constraints_hold at hu
  obtain ⟨huf, hur⟩ := hu
  unfold crossing_constraints_hold at hcc
  have hdiagkeys : ∀ i, i < texts.length →
      (i, i) ∈ match_vars texts texts stages := by
    intro i hi
    rw [match_vars_mem]
    exact ⟨hi, hi, (pairWeight_diag texts stages hstages i).2⟩
  have hreq : required_matches (match_vars texts texts stages) =
      texts.length :=
    required_matches_eq _ _ (match_vars_pairwise texts texts stages)
      (fun p hp => ((match_vars_mem texts texts stages p).mp hp).1) hdiagkeys
  have hdf : feasible texts texts stages (diagSel texts.length)
      (inducedCross (diagSel texts.length)) := by
    unfold feasible uniqueness_constraints_hold
    refine ⟨?_, ⟨?_, ?_⟩, ?_, inducedCross_constraints _ _⟩
    · intro p hp
      rw [mem_diagSel] at hp
      have hpe : p = (p.1, p.1) := by
        calc p = (p.1, p.2) := rfl
          _ = (p.1, p.1) := by rw [hp.1]
      rw [hpe]
      exact hdiagkeys p.1 hp.2
    · intro h
      rw [Finset.card_le_one]
      intro a ha b hb
      rw [Finset.mem_filter] at ha hb
      have ha' := (mem_diagSel _ a).mp ha.1
      have hb' := (mem_diagSel _ b).mp hb.1
      have h1 : a.1 = b.1 ∧ a.2 = b.2 := by
        obtain ⟨ha1, _⟩ := ha'
        obtain ⟨hb1, _⟩ := hb'
        have h2 := ha.2
        have h3 := hb.2
        constructor <;> omega
      calc a = (a.1, a.2) := rfl
        _ = (b.1, b.2) := by rw [h1.1, h1.2]
        _ = b := rfl
    · intro r
      rw [Finset.card_le_one]
      intro a ha b hb
      rw [Finset.mem_filter] at ha hb
      have ha' := (mem_diagSel _ a).mp ha.1
      have hb' := (mem_diagSel _ b).mp hb.1
      have h1 : a.1 = b.1 ∧ a.2 = b.2 := by
        obtain ⟨ha1, _⟩ := ha'
        obtain ⟨hb1, _⟩ := hb'
        have h2 := ha.2
        have h3 := hb.2
        constructor <;> omega
      calc a = (a.1, a.2) := rfl
        _ = (b.1, b.2) := by rw [h1.1, h1.2]
        _ = b := rfl
    · rw [diagSel_card, hreq]
  have hge := hmax (diagSel texts.length)
    (inducedCross (diagSel texts.length)) hdf
  rw [diag_objective texts stages hstages] at hge
  have hJ := objective_eq texts texts stages S c
  have hlenf : ((match_vars texts texts stages).filter
      fun p => p ∈ S).length = texts.length := by
    rw [filter_mem_length (match_vars_nodup texts texts stages) hSsub,
      hScard, hreq]
  have hsum_le : (((match_vars texts texts stages).filter
      fun p => p ∈ S).map (pairWeight texts texts stages)).sum ≤
        (texts.length : ℚ) * ((stages.map MStage.weight).max?).getD 0 := by
    have hb : ∀ x ∈ (((match_vars texts texts stages).filter
        fun p => p ∈ S).map (pairWeight texts texts stages)),
        x ≤ ((stages.map MStage.weight).max?).getD 0 := by
      intro x hx
      rw [List.mem_map] at hx
      obtain ⟨p, hp, rfl⟩ := hx
      exact pairWeight_le texts texts stages hstages p
        (List.mem_of_mem_filter hp)
    have hs := List.sum_le_card_nsmul _ _ hb
    rw [List.length_map, hlenf] at hs
    calc (((match_vars texts texts stages).filter
        fun p => p ∈ S).map (pairWeight texts texts stages)).sum
        ≤ texts.length • ((stages.map MStage.weight).max?).getD 0 := hs
      _ = (texts.length : ℚ) *
          ((stages.map MStage.weight).max?).getD 0 := nsmul_eq_mul _ _
  have hcmono : (crossing_pairs (match_vars texts texts stages)).countP
      (fun p => inducedCross S p) ≤
        (crossing_pairs (match_vars texts texts stages)).countP
          (fun p => c p) := by
    apply List.countP_mono_left
    intro p hp hind
    unfold inducedCross at hind
    rw [decide_eq_true_eq] at hind
    have hq := hcc p hp
    rw [if_pos hind.1, if_pos hind.2] at hq
    by_contra hcf
    rw [Bool.not_eq_true] at hcf
    rw [hcf] at hq
    norm_num at hq
  have hcount0 : (crossing_pairs (match_vars texts texts stages)).countP
      (fun p => inducedCross S p) = 0 := by
    have h2 : ((crossing_pairs (match_vars texts texts stages)).countP
        (fun p => inducedCross S p) : ℚ) ≤
          ((crossing_pairs (match_vars texts texts stages)).countP
            (fun p => c p) : ℚ) := by
      exact_mod_cast hcmono
    have h3 : ((crossing_pairs (match_vars texts texts stages)).countP
        (fun p => inducedCross S p) : ℚ) ≤ 0 := by
      rw [hJ] at hge
      linarith
    have h4 : ((crossing_pairs (match_vars texts texts stages)).countP
        (fun p => inducedCross S p) : ℚ) = 0 :=
      le_antisymm h3 (by positivity)
    exact_mod_cast h4
  have hnc : ∀ p ∈ S, ∀ q ∈ S, crossesb p q = false := by
    intro p hp q hq
    by_contra hcr
    rw [Bool.not_eq_false] at hcr
    have hmemc : (p, q) ∈ crossing_pairs (match_vars texts texts stages) := by
      unfold crossing_pairs
      rw [List.mem_filter, List.pair_mem_product]
      exact ⟨⟨hSsub p hp, hSsub q hq⟩, by simpa using hcr⟩
    have hz := List.countP_eq_zero.mp hcount0 (p, q) hmemc
    apply hz
    unfold inducedCross
    simp [hp, hq]
  have hfstu : ∀ p ∈ S, ∀ q ∈ S, p.1 = q.1 → p = q := by
    intro p hp q hq he
    exact Finset.card_le_one.mp (huf p.1) p
      (Finset.mem_filter.mpr ⟨hp, rfl⟩) q
      (Finset.mem_filter.mpr ⟨hq, he.symm⟩)
  have hsndu : ∀ p ∈ S, ∀ q ∈ S, p.2 = q.2 → p = q := by
    intro p hp q hq he
    exact Finset.card_le_one.mp (hur p.2) p
      (Finset.mem_filter.mpr ⟨hp, rfl⟩) q
      (Finset.mem_filter.mpr ⟨hq, he.symm⟩)
  have hSdiag : S = diagSel texts.length := by
    apply no_crossing_eq_diag texts.length S
    · intro p hp
      have := (match_vars_mem texts texts stages p).mp (hSsub p hp)
      exact ⟨this.1, this.2.1⟩
    · rw [hScard, hreq]
    · exact hfstu
    · exact hsndu
    · exact hnc
  rw [hSdiag]
  refine ⟨alignResult_diag texts stages hstages, ?_, ?_⟩
  · rw [alignResult_diag texts stages hstages]
    exact count_chunks_diag _ hn
  · rw [alignResult_diag texts stages hstages]
    exact meteorScore_diag _ hn

/-- Witness for C4 at the one-token pair: the diagonal selection with its
induced crossing assignment is optimal, and the theorem yields the diagonal
alignment, one chunk, and score 1. -/
theorem align_identical_witness :
    alignResult ["a"] ["a"] [identityStage] (diagSel 1) =
        (List.range (["a"] : List String).length).map (fun i => (i, i)) ∧
      count_chunks (alignResult ["a"] ["a"] [identityStage] (diagSel 1)) = 1 ∧
      meteorScore (["a"] : List String).length
        (["a"] : List String).length
        (alignResult ["a"] ["a"] [identityStage] (diagSel 1)) = 1 := by
  have hkeys : match_vars ["a"] ["a"] [identityStage] = [(0, 0)] := by decide
  have hdiag1 : diagSel 1 = {((0 : Nat), (0 : Nat))} := by decide
  have hcp : crossing_pairs (match_vars ["a"] ["a"] [identityStage]) = [] := by
    decide
  apply align_identical ["a"] [identityStage] (List.cons_ne_nil _ _)
    (List.cons_ne_nil _ _) (diagSel 1) (inducedCross (diagSel 1))
  unfold optimalAlignment
  constructor
  · unfold feasible uniqueness_constraints_hold
    refine ⟨?_, ⟨?_, ?_⟩, ?_, inducedCross_constraints _ _⟩
    · intro p hp
      rw [hdiag1, Finset.mem_singleton] at hp
      subst hp
      rw [hkeys]
      simp
    · intro h
      exact le_trans (Finset.card_filter_le _ _) (le_of_eq (diagSel_card 1))
    · intro r
      exact le_trans (Finset.card_filter_le _ _) (le_of_eq (diagSel_card 1))
    · rw [diagSel_card]
      decide
  · intro S' c' hf
    unfold feasible at hf
    obtain ⟨hsub, _, hcard, _⟩ := hf
    have hS' : S' = diagSel 1 := by
      have hsub2 : S' ⊆ {((0 : Nat), (0 : Nat))} := by
        intro p hp
        have hm := hsub p hp
        rw [hkeys] at hm
        simp only [List.mem_singleton] at hm
        rw [Finset.mem_singleton]
        exact hm
      have hcard1 : S'.card = 1 := by
        rw [hcard]
        decide
      have heq : S' = {((0 : Nat), (0 : Nat))} :=
        Finset.eq_of_subset_of_card_le hsub2 (by rw [hcard1]; simp)
      rw [heq, hdiag1]
    rw [hS']
    apply le_of_eq
    unfold objective
    rw [hcp]
    simp

end MeteorVerify
